import Mathlib

/-!
Verification of the PySeqSt core: the sequence registry (seq.py), the BLAST
hit matcher and polling loops (bl.py), the RCSB structure search pass (pd.py)
and the EBI AlphaFold predicted-model fallback (af.py).

Strings are embedded as `List Char`.  Python `dict`s (which preserve insertion
order) are embedded as association lists in insertion order.  Remote services
are embedded as oracle functions passed explicitly; each loop additionally
returns the trace of identifiers it actually queried, so that claims about
which accessions are queried can be stated.
-/

namespace PySeqSt

/-- Chars of a string literal. -/
def cs (s : String) : List Char := s.data

/-- Python `str.strip()` (whitespace trim at both ends). -/
def trim (l : List Char) : List Char :=
  ((l.dropWhile Char.isWhitespace).reverse.dropWhile Char.isWhitespace).reverse

/-- Python `str.upper()` on a char list. -/
def upper (l : List Char) : List Char := l.map Char.toUpper

/-- Normalization applied to an input sequence in seq.py: `seq.strip().upper()`. -/
def normSeq (l : List Char) : List Char := upper (trim l)

/-- The amino-acid alphabet of `Seqs._validate_seq`, including the gap symbol. -/
def aaChar (c : Char) : Bool :=
  c = 'A' || c = 'C' || c = 'D' || c = 'E' || c = 'F' || c = 'G' || c = 'H' ||
  c = 'I' || c = 'K' || c = 'L' || c = 'M' || c = 'N' || c = 'P' || c = 'Q' ||
  c = 'R' || c = 'S' || c = 'T' || c = 'W' || c = 'V' || c = 'Y' || c = '-'

/-- `Seqs._validate_seq`: full match of the sequence against the regex
pattern of one-or-more alphabet chars followed by an optional star. -/
def validateSeq (s : List Char) : Bool :=
  match s.getLast? with
  | none => false
  | some c =>
    if c = '*' then !s.dropLast.isEmpty && s.dropLast.all aaChar
    else s.all aaChar

/-- Python `d.rsplit(sep, 1)` specialised to an underscore separator:
returns the part before the last underscore and, when an underscore is
present, the part after it. -/
def rsplitLast (s : List Char) : List Char × Option (List Char) :=
  match s.reverse.span (fun c => c ≠ '_') with
  | (_, []) => (s, none)
  | (tl, _ :: front) => (front.reverse, some tl.reverse)

/-- Python `str.isdecimal()` restricted to ASCII digits (the only digits the
program itself ever produces). -/
def isDecimalL (l : List Char) : Bool := !l.isEmpty && l.all Char.isDigit

/-- Python `int(...)` on a decimal digit string. -/
def digitsToNat (l : List Char) : Nat :=
  l.foldl (fun acc c => 10 * acc + (c.toNat - 48)) 0

/-- One decimal digit as a char. -/
def digCh (k : Nat) : Char :=
  match k with
  | 0 => '0' | 1 => '1' | 2 => '2' | 3 => '3' | 4 => '4'
  | 5 => '5' | 6 => '6' | 7 => '7' | 8 => '8' | 9 => '9'
  | _ => '?'

/-- Fuelled digit emitter for `natToDec`; the fuel is structural so the
definition evaluates by kernel reduction. -/
def natToDecGo : Nat → Nat → List Char → List Char
  | 0, _, acc => acc
  | fuel + 1, n, acc =>
    if n = 0 then acc else natToDecGo fuel (n / 10) (digCh (n % 10) :: acc)

/-- Python `str(...)` on a natural number. -/
def natToDec (n : Nat) : List Char :=
  if n = 0 then ['0'] else natToDecGo (n + 1) n []

/-- The descriptor produced by one round of the collision loop in
`Seqs.add_seq`: split at the last underscore; if there is no underscore or
the suffix is not decimal, append a fresh suffix 2, otherwise increment the
numeric suffix (this is the rsplit / append / join dance of the source,
with the join results written out). -/
def nextDscrptr (d : List Char) : List Char :=
  match rsplitLast d with
  | (_, none) => d ++ ('_' :: ['2'])
  | (base, some suf) =>
    if isDecimalL suf then base ++ '_' :: natToDec (digitsToNat suf + 1)
    else d ++ ('_' :: ['2'])

/-- The collision loop of `Seqs.add_seq`, fuelled.  The source loops until
the candidate descriptor is unused; the successive candidates are pairwise
distinct, so a fuel of one more than the number of stored descriptors is
always enough, and `addSeq` below supplies exactly that. -/
def uniquify (ks : List (List Char)) : Nat → List Char → List Char
  | 0, d => d
  | fuel + 1, d => if d ∈ ks then uniquify ks fuel (nextDscrptr d) else d

/-- Ordered-dict lookup. -/
def lookupD {β : Type} (m : List (List Char × β)) (k : List Char) : Option β :=
  match m with
  | [] => none
  | (k₁, v) :: rest => if k₁ = k then some v else lookupD rest k

/-- Ordered-dict assignment: update in place when the key is present,
append otherwise (Python dict semantics). -/
def dictInsert {β : Type} (m : List (List Char × β)) (k : List Char) (v : β) :
    List (List Char × β) :=
  match m with
  | [] => [(k, v)]
  | (k₁, v₁) :: rest =>
    if k₁ = k then (k₁, v) :: rest else (k₁, v₁) :: dictInsert rest k v

/-- The `Seqs` object of seq.py: descriptor/sequence pairs in insertion
order, the set of unique sequences, and the structure and accession dicts. -/
structure Seqs where
  seqs : List (List Char × List Char)
  useqs : List (List Char)
  structures : List (List Char × List (List Char))
  accessions : List (List Char × List (List Char))
deriving DecidableEq, Repr

/-- The empty `Seqs` object (`Seqs.__init__`). -/
def initSeqs : Seqs := ⟨[], [], [], []⟩

/-- `Seqs.dscrptrs`: stored descriptors in insertion order. -/
def Seqs.dscrptrs (st : Seqs) : List (List Char) := st.seqs.map Prod.fst

/-- `Seqs.get_seq`. -/
def Seqs.getSeq (st : Seqs) (d : List Char) : Option (List Char) :=
  lookupD st.seqs d

/-- `Seqs.get_structures`. -/
def Seqs.getStructures (st : Seqs) (d : List Char) : Option (List (List Char)) :=
  lookupD st.structures d

/-- Outcome codes of `Seqs.add_seq` (0 added, 1 invalid, 2 duplicate). -/
inductive AddOutcome
  | added
  | invalid
  | dup
deriving DecidableEq, Repr

/-- `Seqs.add_seq`: normalize, reject duplicates, validate, auto-name empty
descriptors, resolve descriptor collisions, insert. -/
def Seqs.addSeq (st : Seqs) (dscrptr sq : List Char) : AddOutcome × Seqs :=
  let s := normSeq sq
  let d := trim dscrptr
  if s ∈ st.useqs then (.dup, st)
  else if validateSeq s then
    let d₁ := if d.isEmpty then cs "seq_" ++ natToDec (st.seqs.length + 1) else d
    let d₂ := uniquify st.dscrptrs (st.seqs.length + 1) d₁
    (.added, { st with seqs := dictInsert st.seqs d₂ s, useqs := st.useqs ++ [s] })
  else (.invalid, st)

/-! ### Descriptor verification (`Seqs._verify_dscrptr`)

The source interpolates the candidate descriptor unescaped into the regex
pattern `{candidate}(?:_\d+)?$` and matches it with `re.match`.  The
embedding implements the fragment of Python regex semantics these patterns
can exercise on this program's data: each pattern char matches itself
literally except `.`, which matches any char, followed by the literal
optional `_<digits>` group anchored at the end of the string.  (Other regex
metacharacters are outside the modelled fragment.) -/

/-- One pattern char against one subject char: `.` is the wildcard. -/
def charMatch (p c : Char) : Bool := p = '.' || p = c

/-- Match the pattern chars against the front of the subject; return the
unmatched remainder on success. -/
def pfxMatch : List Char → List Char → Option (List Char)
  | [], s => some s
  | _ :: _, [] => none
  | p :: ps, c :: rest => if charMatch p c then pfxMatch ps rest else none

/-- The remainder allowed by `(?:_\d+)?$`: nothing, or an underscore
followed by one or more digits. -/
def tailOk : List Char → Bool
  | [] => true
  | c :: rest => c = '_' && isDecimalL rest

/-- `re.match` of the verification pattern built from prefix `p` against a
stored descriptor. -/
def reMatchOpt (p s : List Char) : Bool :=
  match pfxMatch p s with
  | none => false
  | some r => tailOk r

/-- The de-incremented candidate text used as the pattern prefix: strip a
trailing `_<digits>` suffix if one is present. -/
def dscrptrPat (d : List Char) : List Char :=
  match rsplitLast d with
  | (_, none) => d
  | (base, some suf) => if isDecimalL suf then base else d

/-- The scan of `Seqs._verify_dscrptr`: first stored descriptor (in
insertion order) matching the pattern and holding the sequence. -/
def verifyScan (st : Seqs) (p s : List Char) : List (List Char) → List Char
  | [] => []
  | k :: rest =>
    if reMatchOpt p k ∧ st.getSeq k = some s then k
    else verifyScan st p s rest

/-- `Seqs._verify_dscrptr`: empty result means not found. -/
def Seqs.verifyDscrptr (st : Seqs) (d s : List Char) : List Char :=
  let d₁ := trim d
  let s₁ := normSeq s
  verifyScan st (dscrptrPat d₁) s₁ st.dscrptrs

/-- `Seqs.add_accessions`. -/
def Seqs.addAccessions (st : Seqs) (dscrptr : List Char)
    (accs : List (List Char)) (sq : List Char) (vrfy : Bool) : Bool × Seqs :=
  let store (d : List Char) : Seqs :=
    if accs.length > 0 then { st with accessions := dictInsert st.accessions d accs }
    else st
  if vrfy then
    let r := st.verifyDscrptr dscrptr sq
    if r.isEmpty then (false, st) else (true, store r)
  else (true, store dscrptr)

/-- The tag check and store of `Seqs.add_structures` after verification:
an empty list or an invalid first element raises `ValueError`; otherwise
the list is stored (wholesale) iff it has an entry beyond the tag. -/
def Seqs.addStructuresCore (st : Seqs) (d : List Char)
    (structures : List (List Char)) : Except (List Char) (Bool × Seqs) :=
  match structures with
  | [] => .error (cs "invalid structure type in first element")
  | t :: rest =>
    if t = cs "pdb" ∨ t = cs "EBI-AF" then
      if rest.length > 0 then
        .ok (true, { st with structures := dictInsert st.structures d structures })
      else .ok (true, st)
    else .error (cs "invalid structure type in first element")

/-- `Seqs.add_structures`: optional verification, then the tag check and
store.  The `.error` constructor embeds the raised `ValueError`. -/
def Seqs.addStructures (st : Seqs) (dscrptr : List Char)
    (structures : List (List Char)) (sq : List Char) (vrfy : Bool) :
    Except (List Char) (Bool × Seqs) :=
  if vrfy then
    let r := st.verifyDscrptr dscrptr sq
    if r.isEmpty then .ok (false, st) else st.addStructuresCore r structures
  else st.addStructuresCore dscrptr structures

/-! ### Registry operations and reachability -/

/-- One mutating call on a `Seqs` object. -/
inductive Op
  | addSeq (d sq : List Char)
  | addAccessions (d : List Char) (accs : List (List Char)) (sq : List Char) (vrfy : Bool)
  | addStructures (d : List Char) (structures : List (List Char)) (sq : List Char) (vrfy : Bool)

/-- The state after one operation (the outcome value is dropped; a raised
`ValueError` leaves the state unchanged, as the source mutates nothing
before raising). -/
def applyOp (st : Seqs) : Op → Seqs
  | .addSeq d sq => (st.addSeq d sq).2
  | .addAccessions d accs sq vrfy => (st.addAccessions d accs sq vrfy).2
  | .addStructures d structures sq vrfy =>
    match st.addStructures d structures sq vrfy with
    | .ok (_, st₁) => st₁
    | .error _ => st

/-- The state reached from a fresh `Seqs()` by a list of operations. -/
def runOps (ops : List Op) : Seqs := ops.foldl applyOp initSeqs

/-- A registry state reachable by some sequence of operations. -/
def Reachable (st : Seqs) : Prop := ∃ ops, runOps ops = st

/-! ### HitMatcher (bl.py: `_checkhit`, `_acc_pdb_from_hit`) -/

/-- One HSP (alignment record) of a BLAST hit, with the fields `_checkhit`
reads.  The thresholds IDENT = 1 and COV = 0.9 of bl.py are embedded with
exact integer arithmetic: `align_len * 1` is `align_len` and
`align_len > q_len * 0.9` is `10 * align_len > 9 * q_len` (for lengths far
below 2^50 the Python float comparison agrees with the exact one). -/
structure Hsp where
  identity : Nat
  gaps : Nat
  align_len : Nat
  hseq : List Char
  qseq : List Char
deriving DecidableEq, Repr

/-- One description record of a BLAST hit. -/
structure DescRec where
  recId : List Char
  accession : List Char
deriving DecidableEq, Repr

/-- One BLAST hit. -/
structure Hit where
  hsps : List Hsp
  description : List DescRec
deriving DecidableEq, Repr

/-- Maximal contiguous runs of the gap symbol in an aligned string
(the length of `re.findall(r"-+", s)`). -/
def countGapRunsGo : Bool → List Char → Nat
  | _, [] => 0
  | inRun, c :: rest =>
    if c = '-' then (if inRun then 0 else 1) + countGapRunsGo true rest
    else countGapRunsGo false rest

/-- Number of gap runs in an aligned string. -/
def countGapRuns (l : List Char) : Nat := countGapRunsGo false l

/-- `_checkhit` on the first HSP of a hit; `none` embeds the IndexError a
hit without HSPs would raise. -/
def checkhit (hit : Hit) (q_len : Nat) : Option Bool :=
  match hit.hsps with
  | [] => none
  | hsp :: _ =>
    some (
      if hsp.identity + hsp.gaps ≥ hsp.align_len ∧ 10 * hsp.align_len > 9 * q_len then
        if hsp.gaps = 0 ∨ (countGapRuns hsp.hseq ≤ 1 ∧ countGapRuns hsp.qseq ≤ 1)
        then true else false
      else false)

/-- `accession.split("_", 1)[0]`: the part before the first underscore. -/
def stripChainId (l : List Char) : List Char := l.takeWhile (fun c => c ≠ '_')

/-- `_acc_pdb_from_hit`, with the accumulating per-query lists `pdbs` and
`accs` and the per-hit `flag` explicit: structure-database records (id
starting with `pdb|`) contribute their chain-stripped accession to `pdbs`
if new; a non-structure record contributes its accession to `accs` only
while the flag is set, and the flag is cleared only when an accession is
actually appended. -/
def accPdbFromHit : List DescRec → List (List Char) → List (List Char) → Bool →
    List (List Char) × List (List Char)
  | [], pdbs, accs, _ => (pdbs, accs)
  | r :: rest, pdbs, accs, flag =>
    if (cs "pdb|").isPrefixOf r.recId then
      let p := stripChainId r.accession
      accPdbFromHit rest (if p ∈ pdbs then pdbs else pdbs ++ [p]) accs flag
    else if flag then
      if r.accession ∈ accs then accPdbFromHit rest pdbs accs flag
      else accPdbFromHit rest pdbs (accs ++ [r.accession]) false
    else accPdbFromHit rest pdbs accs flag

/-- The claim's reading of `_acc_pdb_from_hit` (spec side, for comparison):
the first non-structure record always supplies the accession candidate and
clears the flag, so every later non-structure record of the hit is
ignored. -/
def accPdbFromHitSpec : List DescRec → List (List Char) → List (List Char) → Bool →
    List (List Char) × List (List Char)
  | [], pdbs, accs, _ => (pdbs, accs)
  | r :: rest, pdbs, accs, flag =>
    if (cs "pdb|").isPrefixOf r.recId then
      let p := stripChainId r.accession
      accPdbFromHitSpec rest (if p ∈ pdbs then pdbs else pdbs ++ [p]) accs flag
    else if flag then
      accPdbFromHitSpec rest pdbs
        (if r.accession ∈ accs then accs else accs ++ [r.accession]) false
    else accPdbFromHitSpec rest pdbs accs flag

/-! ### Polling loops (bl.py: `run` and `_convert_to_uniprot`)

Each loop is embedded against the finite list of status responses the
remote returns at successive polls; the first component of the result is
the trace of delays in effect at each `time.sleep(delay)`. -/

/-- Classified BLAST poll outcomes (`_outcome`). -/
inductive BStatus
  | waiting
  | failed
  | expired
  | ready
  | unknownErr
deriving DecidableEq, Repr

/-- The polling loop of `bl.run`: sleep `delay`, poll, and on WAITING
increase the delay by 10 and continue; any other outcome ends the loop
(READY by `break`, the rest by `sys.exit`).  Returns the delays slept and
the terminal outcome (`none` if the status list runs out). -/
def blastPollGo (delay : Nat) : List BStatus → List Nat × Option BStatus
  | [] => ([], none)
  | s :: rest =>
    match s with
    | .waiting =>
      let r := blastPollGo (delay + 10) rest
      (delay :: r.1, r.2)
    | t => ([delay], some t)

/-- `bl.run` starts its loop with `delay = 10`. -/
def blastPoll (ss : List BStatus) : List Nat × Option BStatus := blastPollGo 10 ss

/-- UniProt id-mapping job statuses as observed by `_convert_to_uniprot`:
NEW and RUNNING keep polling, an absent status breaks, anything else
exits. -/
inductive UStatus
  | newJob
  | running
  | absent
  | otherErr
deriving DecidableEq, Repr

/-- The per-job polling loop of `_convert_to_uniprot`: the delay is the
`delay = 15` set before the loop and is never modified.  Returns the delays
slept and whether the loop ended by `break` (success). -/
def upPollGo (delay : Nat) : List UStatus → List Nat × Bool
  | [] => ([], false)
  | s :: rest =>
    match s with
    | .newJob =>
      let r := upPollGo delay rest
      (delay :: r.1, r.2)
    | .running =>
      let r := upPollGo delay rest
      (delay :: r.1, r.2)
    | .absent => ([], true)
    | .otherErr => ([], false)

/-- `_convert_to_uniprot` sets `delay = 15` for every job's loop. -/
def upPoll (ss : List UStatus) : List Nat × Bool := upPollGo 15 ss

/-! ### AlphaFold fallback (af.py: `from_uniprot`)

The EBI lookup is an oracle `List Char → Option (List Char)`: `none` embeds
the 404 "no structure" response, `some url` the cifUrl of a found model.
Each function also returns the trace of accessions actually queried. -/

/-- The accession loop of `from_uniprot`: a 404 breaks the loop; a found
model is appended and the loop continues with the next accession. -/
def afLoop (lookup : List Char → Option (List Char)) :
    List (List Char) → List (List Char) × List (List Char)
  | [] => ([], [])
  | a :: rest =>
    match lookup a with
    | none => ([], [a])
    | some url =>
      let r := afLoop lookup rest
      (url :: r.1, a :: r.2)

/-- `from_uniprot` over the accession items, threading the registry state:
descriptors that already have structures are skipped; otherwise the loop
result, tagged `EBI-AF`, is handed to `add_structures` with verification
skipped. -/
def fromUniprotGo (lookup : List Char → Option (List Char)) (st : Seqs) :
    List (List Char × List (List Char)) → Seqs × List (List Char)
  | [] => (st, [])
  | (d, accs) :: rest =>
    if ((st.getStructures d).getD []).isEmpty then
      let r := afLoop lookup accs
      let st₁ :=
        match st.addStructures d (cs "EBI-AF" :: r.1) [] false with
        | .ok (_, s₁) => s₁
        | .error _ => st
      let rec₁ := fromUniprotGo lookup st₁ rest
      (rec₁.1, r.2 ++ rec₁.2)
    else fromUniprotGo lookup st rest

/-- `af.from_uniprot`. -/
def fromUniprot (lookup : List Char → Option (List Char)) (st : Seqs) :
    Seqs × List (List Char) :=
  fromUniprotGo lookup st st.accessions

/-- Modelled from the spec's words, for comparison with `afLoop` (the
source): the first accession that yields a model short-circuits the search;
an accession without a model is passed over and the search continues. -/
def afLoopSpec (lookup : List Char → Option (List Char)) :
    List (List Char) → List (List Char) × List (List Char)
  | [] => ([], [])
  | a :: rest =>
    match lookup a with
    | none =>
      let r := afLoopSpec lookup rest
      (r.1, a :: r.2)
    | some url => ([url], [a])

/-! ### RCSB structure search pass (pd.py: `uniprot_to_pdb`)

The search is an oracle `List Char → Option (List (List Char))`: `none`
embeds the 204 "no results" response, `some ids` the identifiers of the
result set. -/

/-- The accession loop of `uniprot_to_pdb`: a 204 breaks the loop; found
identifiers are chain-stripped and appended when new. -/
def pdLoop (search : List Char → Option (List (List Char))) :
    List (List Char) → List (List Char) → List (List Char) × List (List Char)
  | [], pdbs => (pdbs, [])
  | a :: rest, pdbs =>
    match search a with
    | none => (pdbs, [a])
    | some ids =>
      let pdbs₁ := ids.foldl
        (fun ps r => if stripChainId r ∈ ps then ps else ps ++ [stripChainId r]) pdbs
      let r := pdLoop search rest pdbs₁
      (r.1, a :: r.2)

/-- The seed list for one descriptor in `uniprot_to_pdb`: the stored
structures when they are pdb-tagged, a bare tag otherwise. -/
def pdSeed (st : Seqs) (d : List Char) : List (List Char) :=
  match st.getStructures d with
  | some (t :: rest) => if t = cs "pdb" then t :: rest else [cs "pdb"]
  | _ => [cs "pdb"]

/-- `uniprot_to_pdb` over the accession items, threading the registry
state. -/
def uniprotToPdbGo (search : List Char → Option (List (List Char))) (st : Seqs) :
    List (List Char × List (List Char)) → Seqs × List (List Char)
  | [] => (st, [])
  | (d, accs) :: rest =>
    let r := pdLoop search accs (pdSeed st d)
    let st₁ :=
      match st.addStructures d r.1 [] false with
      | .ok (_, s₁) => s₁
      | .error _ => st
    let rec₁ := uniprotToPdbGo search st₁ rest
    (rec₁.1, r.2 ++ rec₁.2)

/-- `pd.uniprot_to_pdb`. -/
def uniprotToPdb (search : List Char → Option (List (List Char))) (st : Seqs) :
    Seqs × List (List Char) :=
  uniprotToPdbGo search st st.accessions

/-- Modelled from the spec's words, for comparison with `pdLoop` (the
source): every accession of the descriptor is queried; the no-results
sentinel merely contributes nothing. -/
def pdLoopSpec (search : List Char → Option (List (List Char))) :
    List (List Char) → List (List Char) → List (List Char) × List (List Char)
  | [], pdbs => (pdbs, [])
  | a :: rest, pdbs =>
    match search a with
    | none =>
      let r := pdLoopSpec search rest pdbs
      (r.1, a :: r.2)
    | some ids =>
      let pdbs₁ := ids.foldl
        (fun ps r => if stripChainId r ∈ ps then ps else ps ++ [stripChainId r]) pdbs
      let r := pdLoopSpec search rest pdbs₁
      (r.1, a :: r.2)

/-! ### Spec-side characterizations and concrete instances used by the claims -/

/-- The n-th descriptor of the collision chain rooted at `d`:
`d, d_2, d_3, ...`. -/
def chainName (d : List Char) (i : Nat) : List Char :=
  if i ≤ 1 then d else d ++ '_' :: natToDec i

/-- `d` does not itself end in an underscore followed by decimal digits. -/
def noDecSuffix (d : List Char) : Bool :=
  match rsplitLast d with
  | (_, none) => true
  | (_, some suf) => !isDecimalL suf

/-- Add a batch of raw sequences under one raw descriptor, in order,
collecting the outcomes. -/
def addAll (st : Seqs) (d : List Char) : List (List Char) → Seqs × List AddOutcome
  | [] => (st, [])
  | sq :: rest =>
    let r := st.addSeq d sq
    let rec₁ := addAll r.2 d rest
    (rec₁.1, r.1 :: rec₁.2)

/-- The entries a batch of sequences receives when added under one
collision-chain root: the (k+1)-th, (k+2)-th, ... chain descriptors paired
with the normalized sequences, in submission order. -/
def chainEntries (d : List Char) (k : Nat) : List (List Char) → List (List Char × List Char)
  | [] => []
  | sq :: rest => (chainName d (k + 1), normSeq sq) :: chainEntries d (k + 1) rest

/-- The registry invariant behind claim C5: stored sequences are pairwise
distinct and every stored sequence is in the unique-sequence set. -/
def SeqsInv (st : Seqs) : Prop :=
  (st.seqs.map Prod.snd).Pairwise (fun a b => a ≠ b) ∧
  ∀ v ∈ st.seqs.map Prod.snd, v ∈ st.useqs

/-- Models (spec side) the cif urls `from_uniprot` collects for one
descriptor: those of the accessions before the first 404. -/
def afFound (lookup : List Char → Option (List Char)) (accs : List (List Char)) :
    List (List Char) :=
  (accs.takeWhile (fun a => (lookup a).isSome)).filterMap lookup

/-- Models (spec side) the accessions `from_uniprot` queries for one
descriptor: all of them up to and including the first one without a model. -/
def afQueried (lookup : List Char → Option (List Char)) (accs : List (List Char)) :
    List (List Char) :=
  accs.take ((accs.takeWhile (fun a => (lookup a).isSome)).length + 1)

/-- Dedup-append of chain-stripped identifiers (the inner fold of
`uniprot_to_pdb`). -/
def pdAdd (ps : List (List Char)) (ids : List (List Char)) : List (List Char) :=
  ids.foldl (fun ps r => if stripChainId r ∈ ps then ps else ps ++ [stripChainId r]) ps

/-- Models (spec side) the pdb list `uniprot_to_pdb` builds for one
descriptor: identifiers of the accessions before the first 204, folded into
the seed. -/
def pdFound (search : List Char → Option (List (List Char)))
    (accs : List (List Char)) (pdbs : List (List Char)) : List (List Char) :=
  (accs.takeWhile (fun a => (search a).isSome)).foldl
    (fun ps a =>
      match search a with
      | some ids => pdAdd ps ids
      | none => ps) pdbs

/-- Models (spec side) the accessions `uniprot_to_pdb` queries for one
descriptor: all of them up to and including the first with no results. -/
def pdQueried (search : List Char → Option (List (List Char)))
    (accs : List (List Char)) : List (List Char) :=
  accs.take ((accs.takeWhile (fun a => (search a).isSome)).length + 1)

/-- Models (spec side) the pdb accumulation of `_acc_pdb_from_hit`: every
structure-database record's chain-stripped accession, dedup-appended. -/
def hitPdbAcc (rs : List DescRec) (pdbs : List (List Char)) : List (List Char) :=
  (rs.filter (fun r => (cs "pdb|").isPrefixOf r.recId)).foldl
    (fun ps r =>
      if stripChainId r.accession ∈ ps then ps else ps ++ [stripChainId r.accession])
    pdbs

/-- Models (spec side) the accession `_acc_pdb_from_hit` appends for one
hit: the first non-structure record whose accession is not already
accumulated. -/
def hitNewAcc (rs : List DescRec) (accs : List (List Char)) : Option (List Char) :=
  ((rs.filter (fun r => !(cs "pdb|").isPrefixOf r.recId)).map
    (fun r => r.accession)).find? (fun a => !decide (a ∈ accs))

/-- Registry state of the C2 counterexample: one descriptor with two
accessions, no stored structures. -/
def afCexSt : Seqs :=
  { seqs := [(cs "d", cs "AAA")], useqs := [cs "AAA"],
    structures := [], accessions := [(cs "d", [cs "A1", cs "A2"])] }

/-- Lookup oracle of the C2 counterexample: both accessions have models. -/
def afCexLookup (a : List Char) : Option (List Char) :=
  if a = cs "A1" then some (cs "u1.cif")
  else if a = cs "A2" then some (cs "u2.cif")
  else none

/-- Registry state of the C3 counterexample: one descriptor with two
accessions, no stored structures. -/
def pdCexSt : Seqs :=
  { seqs := [(cs "d", cs "AAA")], useqs := [cs "AAA"],
    structures := [], accessions := [(cs "d", [cs "A1", cs "A2"])] }

/-- Search oracle of the C3 counterexample: the first accession has no
results (204), the second has one. -/
def pdCexSearch (a : List Char) : Option (List (List Char)) :=
  if a = cs "A2" then some [cs "1ABC_A"] else none

/-- Registry state of the C10 instance: one stored descriptor matched by a
wildcard in the candidate. -/
def regexCexSt : Seqs :=
  { seqs := [(cs "dXc", cs "AAA")], useqs := [cs "AAA"],
    structures := [], accessions := [] }

/-- The descriptor `add_structures`/`add_accessions` store under: the
verification result when verification is requested, the raw argument
otherwise. -/
def resolvedD (st : Seqs) (dscrptr sq : List Char) (vrfy : Bool) : List Char :=
  if vrfy then st.verifyDscrptr dscrptr sq else dscrptr

/-- Registry state of the C6 witness: one stored descriptor "d". -/
def stC6 : Seqs := (initSeqs.addSeq (cs "d") (cs "AAA")).2

/-! ### Helper lemmas: decimal strings -/

theorem digCh_isDigit (k : Nat) (hk : k < 10) : (digCh k).isDigit = true := by
  interval_cases k <;> decide

theorem digCh_val (k : Nat) (hk : k < 10) : (digCh k).toNat - 48 = k := by
  interval_cases k <;> decide

theorem digCh_ne_underscore (k : Nat) (hk : k < 10) : digCh k ≠ '_' := by
  interval_cases k <;> decide

theorem digitsToNat_from (l : List Char) (a : Nat) :
    l.foldl (fun acc c => 10 * acc + (c.toNat - 48)) a
      = a * 10 ^ l.length + digitsToNat l := by
  induction l generalizing a with
  | nil => simp [digitsToNat]
  | cons c rest ih =>
    simp only [List.foldl_cons, digitsToNat, List.length_cons]
    rw [ih (10 * a + (c.toNat - 48)), ih (10 * 0 + (c.toNat - 48))]
    ring

theorem digitsToNat_append (l₁ l₂ : List Char) :
    digitsToNat (l₁ ++ l₂) = digitsToNat l₁ * 10 ^ l₂.length + digitsToNat l₂ := by
  simp only [digitsToNat, List.foldl_append]
  rw [digitsToNat_from l₂ (List.foldl (fun acc c => 10 * acc + (c.toNat - 48)) 0 l₁)]
  rfl

theorem natToDecGo_append (fuel n : Nat) (acc : List Char) :
    natToDecGo fuel n acc = natToDecGo fuel n [] ++ acc := by
  induction fuel generalizing n acc with
  | zero => simp [natToDecGo]
  | succ fuel ih =>
    by_cases h : n = 0
    · simp [natToDecGo, h]
    · rw [natToDecGo, natToDecGo, if_neg h, if_neg h,
        ih (n / 10) (digCh (n % 10) :: acc), ih (n / 10) [digCh (n % 10)]]
      simp

theorem natToDecGo_zero (fuel : Nat) : natToDecGo fuel 0 [] = [] := by
  cases fuel <;> simp [natToDecGo]

theorem natToDecGo_fuel (f₁ f₂ n : Nat) (h₁ : n ≤ f₁) (h₂ : n ≤ f₂) :
    natToDecGo f₁ n [] = natToDecGo f₂ n [] := by
  induction n using Nat.strong_induction_on generalizing f₁ f₂ with
  | _ n ih =>
    by_cases hn : n = 0
    · subst hn; rw [natToDecGo_zero, natToDecGo_zero]
    · obtain ⟨g₁, rfl⟩ : ∃ g, f₁ = g + 1 :=
        ⟨f₁ - 1, (Nat.succ_pred_eq_of_pos (Nat.lt_of_lt_of_le (Nat.pos_of_ne_zero hn) h₁)).symm⟩
      obtain ⟨g₂, rfl⟩ : ∃ g, f₂ = g + 1 :=
        ⟨f₂ - 1, (Nat.succ_pred_eq_of_pos (Nat.lt_of_lt_of_le (Nat.pos_of_ne_zero hn) h₂)).symm⟩
      rw [natToDecGo, natToDecGo, if_neg hn, if_neg hn,
        natToDecGo_append g₁ (n / 10), natToDecGo_append g₂ (n / 10)]
      have hd : n / 10 < n := Nat.div_lt_self (Nat.pos_of_ne_zero hn) (by norm_num)
      rw [ih (n / 10) hd g₁ g₂ (by omega) (by omega)]

theorem digitsToNat_natToDec (n : Nat) : digitsToNat (natToDec n) = n := by
  induction n using Nat.strong_induction_on with
  | _ n ih =>
    by_cases hn : n = 0
    · subst hn; decide
    · rw [natToDec, if_neg hn, natToDecGo, if_neg hn, natToDecGo_append]
      by_cases hsmall : n < 10
      · rw [Nat.div_eq_of_lt hsmall, natToDecGo_zero]
        simp only [List.nil_append, digitsToNat, List.foldl_cons, List.foldl_nil]
        rw [Nat.mod_eq_of_lt hsmall, digCh_val n hsmall]
        omega
      · have hd : n / 10 < n := Nat.div_lt_self (Nat.pos_of_ne_zero hn) (by norm_num)
        have hd0 : n / 10 ≠ 0 := by
          have := Nat.div_pos (Nat.le_of_not_lt hsmall) (by norm_num : 0 < 10)
          omega
        rw [natToDecGo_fuel n (n / 10 + 1) (n / 10) (Nat.le_of_lt hd) (Nat.le_succ _)]
        have : natToDecGo (n / 10 + 1) (n / 10) [] = natToDec (n / 10) := by
          rw [natToDec, if_neg hd0]
        rw [this, digitsToNat_append]
        simp only [List.length_cons, List.length_nil]
        have hm : digitsToNat [digCh (n % 10)] = n % 10 := by
          simp only [digitsToNat, List.foldl_cons, List.foldl_nil]
          rw [digCh_val (n % 10) (Nat.mod_lt n (by norm_num))]
          omega
        rw [hm, ih (n / 10) hd]
        simp [pow_one]
        omega

theorem natToDec_all_digits (n : Nat) : (natToDec n).all Char.isDigit = true := by
  have go : ∀ fuel m (acc : List Char), acc.all Char.isDigit = true →
      (natToDecGo fuel m acc).all Char.isDigit = true := by
    intro fuel
    induction fuel with
    | zero => intro m acc h; simpa [natToDecGo] using h
    | succ fuel ih =>
      intro m acc h
      by_cases hm : m = 0
      · simpa [natToDecGo, hm] using h
      · rw [natToDecGo, if_neg hm]
        exact ih (m / 10) _ (by
          simp only [List.all_cons, h, Bool.and_true]
          exact digCh_isDigit (m % 10) (Nat.mod_lt m (by norm_num)))
  by_cases hn : n = 0
  · subst hn; decide
  · rw [natToDec, if_neg hn]; exact go (n + 1) n [] rfl

theorem natToDec_ne_nil (n : Nat) : natToDec n ≠ [] := by
  by_cases hn : n = 0
  · subst hn; decide
  · rw [natToDec, if_neg hn, natToDecGo, if_neg hn, natToDecGo_append]
    simp

theorem natToDec_no_underscore (n : Nat) : '_' ∉ natToDec n := by
  intro hmem
  have h := natToDec_all_digits n
  rw [List.all_eq_true] at h
  have := h _ hmem
  simp at this

theorem natToDec_inj (m n : Nat) (h : natToDec m = natToDec n) : m = n := by
  have := digitsToNat_natToDec m
  rw [h, digitsToNat_natToDec] at this
  omega

/-! ### Helper lemmas: rsplitLast and nextDscrptr -/

theorem span_all_append (p : Char → Bool) (l₁ : List Char) (x : Char) (l₂ : List Char)
    (h₁ : ∀ c ∈ l₁, p c = true) (hx : p x = false) :
    (l₁ ++ x :: l₂).span p = (l₁, x :: l₂) := by
  rw [List.span_eq_take_drop]
  simp only [Prod.mk.injEq]
  constructor
  · induction l₁ with
    | nil => simp [List.takeWhile, hx]
    | cons c rest ih =>
      simp only [List.cons_append, List.takeWhile]
      rw [h₁ c (by simp)]
      simpa using ih (fun c hc => h₁ c (by simp [hc]))
  · induction l₁ with
    | nil => simp [List.dropWhile, hx]
    | cons c rest ih =>
      simp only [List.cons_append, List.dropWhile]
      rw [h₁ c (by simp)]
      exact ih (fun c hc => h₁ c (by simp [hc]))

theorem rsplitLast_append (pre suf : List Char) (h : '_' ∉ suf) :
    rsplitLast (pre ++ '_' :: suf) = (pre, some suf) := by
  rw [rsplitLast]
  have hrev : (pre ++ '_' :: suf).reverse = suf.reverse ++ '_' :: pre.reverse := by
    simp
  rw [hrev, span_all_append _ _ _ _ ?h1 ?h2]
  · simp
  case h1 =>
    intro c hc
    have : c ∈ suf := by simpa using hc
    simp only [ne_eq, decide_eq_true_eq]
    intro hEq; exact h (hEq ▸ this)
  case h2 => simp

theorem rsplitLast_no_underscore (d : List Char) (h : '_' ∉ d) :
    rsplitLast d = (d, none) := by
  rw [rsplitLast]
  have : d.reverse.span (fun c => c ≠ '_') = (d.reverse, []) := by
    rw [List.span_eq_take_drop]
    simp only [Prod.mk.injEq]
    constructor
    · rw [List.takeWhile_eq_self_iff]
      intro c hc
      have : c ∈ d := by simpa using hc
      simp only [ne_eq, decide_eq_true_eq]
      intro hEq; exact h (hEq ▸ this)
    · rw [List.dropWhile_eq_nil_iff]
      intro c hc
      have : c ∈ d := by simpa using hc
      simp only [ne_eq, decide_eq_true_eq]
      intro hEq; exact h (hEq ▸ this)
  rw [this]

end PySeqSt

namespace PySeqSt

/-! ### Helper lemmas: ordered dicts -/

theorem lookupD_dictInsert_self {β : Type} (m : List (List Char × β)) (k : List Char) (v : β) :
    lookupD (dictInsert m k v) k = some v := by
  induction m with
  | nil => simp [dictInsert, lookupD]
  | cons p rest ih =>
    obtain ⟨k₁, v₁⟩ := p
    by_cases h : k₁ = k
    · simp [dictInsert, lookupD, h]
    · simp [dictInsert, lookupD, h, ih]

theorem lookupD_dictInsert_ne {β : Type} (m : List (List Char × β)) (k k₁ : List Char) (v : β)
    (h : k₁ ≠ k) : lookupD (dictInsert m k v) k₁ = lookupD m k₁ := by
  induction m with
  | nil =>
    simp only [dictInsert, lookupD]
    rw [if_neg (fun hEq : k = k₁ => h hEq.symm)]
  | cons p rest ih =>
    obtain ⟨k₂, v₂⟩ := p
    by_cases h₂ : k₂ = k
    · subst h₂
      have hne : ¬ k₂ = k₁ := fun hEq => h (hEq.symm.trans rfl)
      simp only [dictInsert, if_pos rfl, lookupD, if_neg hne]
    · simp only [dictInsert, if_neg h₂, lookupD, ih]

theorem dictInsert_fresh {β : Type} (m : List (List Char × β)) (k : List Char) (v : β)
    (h : k ∉ m.map Prod.fst) : dictInsert m k v = m ++ [(k, v)] := by
  induction m with
  | nil => simp [dictInsert]
  | cons p rest ih =>
    obtain ⟨k₁, v₁⟩ := p
    simp only [List.map_cons, List.mem_cons] at h
    push_neg at h
    rw [dictInsert, if_neg (fun hEq => h.1 hEq.symm), ih h.2]
    simp

theorem mem_snd_dictInsert {β : Type} (m : List (List Char × β)) (k : List Char) (v w : β)
    (h : w ∈ (dictInsert m k v).map Prod.snd) : w ∈ m.map Prod.snd ∨ w = v := by
  induction m with
  | nil =>
    right
    rw [show dictInsert ([] : List (List Char × β)) k v = [(k, v)] from rfl] at h
    rw [List.map_cons, List.map_nil, List.mem_singleton] at h
    exact h
  | cons p rest ih =>
    obtain ⟨k₁, v₁⟩ := p
    by_cases hk : k₁ = k
    · rw [dictInsert, if_pos hk, List.map_cons, List.mem_cons] at h
      rcases h with h | h
      · right; exact h
      · left
        rw [List.map_cons, List.mem_cons]
        right; exact h
    · rw [dictInsert, if_neg hk, List.map_cons, List.mem_cons] at h
      rcases h with h | h
      · left
        rw [List.map_cons, List.mem_cons]
        left; exact h
      · rcases ih h with h₁ | h₁
        · left
          rw [List.map_cons, List.mem_cons]
          right; exact h₁
        · right; exact h₁

theorem pairwise_snd_dictInsert {β : Type} (m : List (List Char × β)) (k : List Char) (v : β)
    (hfresh : ∀ w ∈ m.map Prod.snd, w ≠ v)
    (hpair : (m.map Prod.snd).Pairwise (fun a b => a ≠ b)) :
    ((dictInsert m k v).map Prod.snd).Pairwise (fun a b => a ≠ b) := by
  induction m with
  | nil =>
    rw [show dictInsert ([] : List (List Char × β)) k v = [(k, v)] from rfl]
    exact List.pairwise_singleton _ _
  | cons p rest ih =>
    obtain ⟨k₁, v₁⟩ := p
    rw [List.map_cons, List.pairwise_cons] at hpair
    have hfr : ∀ w ∈ rest.map Prod.snd, w ≠ v := by
      intro w hw
      refine hfresh w ?_
      rw [List.map_cons, List.mem_cons]; right; exact hw
    by_cases hk : k₁ = k
    · rw [dictInsert, if_pos hk, List.map_cons, List.pairwise_cons]
      refine ⟨?_, hpair.2⟩
      intro w hw hEq
      exact hfr w hw hEq.symm
    · rw [dictInsert, if_neg hk, List.map_cons, List.pairwise_cons]
      constructor
      · intro w hw
        rcases mem_snd_dictInsert rest k v w hw with h | h
        · exact hpair.1 w h
        · subst h
          intro hEq
          exact hfresh v₁ (by rw [List.map_cons, List.mem_cons]; left; rfl) hEq
      · exact ih hfr hpair.2

theorem filter_snd_eq_nil {β : Type} [DecidableEq β] (m : List (List Char × β)) (v : β)
    (h : ∀ w ∈ m.map Prod.snd, w ≠ v) :
    m.filter (fun e => e.2 = v) = [] := by
  induction m with
  | nil => rfl
  | cons p rest ih =>
    obtain ⟨k₁, v₁⟩ := p
    rw [List.filter_cons]
    have hne : v₁ ≠ v := h v₁ (by rw [List.map_cons, List.mem_cons]; left; rfl)
    rw [if_neg (by simpa using hne)]
    exact ih (fun w hw => h w (by rw [List.map_cons, List.mem_cons]; right; exact hw))

theorem filter_snd_dictInsert_one {β : Type} [DecidableEq β]
    (m : List (List Char × β)) (k : List Char) (v : β)
    (h : ∀ w ∈ m.map Prod.snd, w ≠ v) :
    ((dictInsert m k v).filter (fun e => e.2 = v)).length = 1 := by
  induction m with
  | nil =>
    rw [show dictInsert ([] : List (List Char × β)) k v = [(k, v)] from rfl]
    rw [List.filter_cons]
    simp
  | cons p rest ih =>
    obtain ⟨k₁, v₁⟩ := p
    have hne : v₁ ≠ v := h v₁ (by rw [List.map_cons, List.mem_cons]; left; rfl)
    have hrest : ∀ w ∈ rest.map Prod.snd, w ≠ v :=
      fun w hw => h w (by rw [List.map_cons, List.mem_cons]; right; exact hw)
    by_cases hk : k₁ = k
    · rw [dictInsert, if_pos hk, List.filter_cons]
      rw [if_pos (by simp)]
      rw [filter_snd_eq_nil rest v hrest]
      rfl
    · rw [dictInsert, if_neg hk, List.filter_cons, if_neg (by simpa using hne)]
      exact ih hrest

/-! ### Helper lemmas: the collision chain -/

theorem chainName_one (d : List Char) : chainName d 1 = d := by
  simp [chainName]

theorem chainName_ge_two (d : List Char) (i : Nat) (hi : 2 ≤ i) :
    chainName d i = d ++ '_' :: natToDec i := by
  rw [chainName, if_neg (by omega)]

theorem chainName_inj (d : List Char) (i j : Nat) (hi : 1 ≤ i) (hj : 1 ≤ j)
    (h : chainName d i = chainName d j) : i = j := by
  by_cases h2i : 2 ≤ i <;> by_cases h2j : 2 ≤ j
  · rw [chainName_ge_two d i h2i, chainName_ge_two d j h2j] at h
    have := List.append_cancel_left h
    exact natToDec_inj i j (by simpa using this)
  · have hj1 : j = 1 := by omega
    subst hj1
    rw [chainName_ge_two d i h2i, chainName_one] at h
    have hlen := congrArg List.length h
    rw [List.length_append, List.length_cons] at hlen
    omega
  · have hi1 : i = 1 := by omega
    subst hi1
    rw [chainName_one, chainName_ge_two d j h2j] at h
    have hlen := congrArg List.length h
    rw [List.length_append, List.length_cons] at hlen
    omega
  · omega

theorem isDecimalL_natToDec (n : Nat) : isDecimalL (natToDec n) = true := by
  rw [isDecimalL]
  simp only [Bool.and_eq_true, Bool.not_eq_true']
  exact ⟨by simpa [List.isEmpty_iff] using natToDec_ne_nil n, natToDec_all_digits n⟩

theorem nextDscrptr_chainName (d : List Char) (hn : noDecSuffix d = true) (i : Nat)
    (hi : 1 ≤ i) : nextDscrptr (chainName d i) = chainName d (i + 1) := by
  by_cases h2 : 2 ≤ i
  · rw [chainName_ge_two d i h2, nextDscrptr,
      rsplitLast_append d (natToDec i) (natToDec_no_underscore i)]
    simp only [isDecimalL_natToDec, if_pos]
    rw [digitsToNat_natToDec, chainName_ge_two d (i + 1) (by omega)]
  · have hi1 : i = 1 := by omega
    subst hi1
    rw [chainName_one, nextDscrptr]
    rw [noDecSuffix] at hn
    have h2eq : natToDec 2 = ['2'] := by decide
    rcases hsplit : rsplitLast d with ⟨base, osuf⟩
    rw [hsplit] at hn
    cases osuf with
    | none =>
      rw [chainName_ge_two d 2 (by omega), h2eq]
    | some suf =>
      simp only [Bool.not_eq_true'] at hn
      rw [chainName_ge_two d 2 (by omega), h2eq]
      simp [hn]

theorem uniquify_chain (d : List Char) (hn : noDecSuffix d = true)
    (ks : List (List Char)) (k : Nat)
    (hmem : ∀ i, 1 ≤ i → (chainName d i ∈ ks ↔ i ≤ k)) :
    ∀ fuel j, 1 ≤ j → j ≤ k + 1 → k + 2 ≤ fuel + j →
      uniquify ks fuel (chainName d j) = chainName d (k + 1) := by
  intro fuel
  induction fuel with
  | zero => intro j hj1 hjk hfuel; omega
  | succ fuel ih =>
    intro j hj1 hjk hfuel
    rw [uniquify]
    by_cases hjle : j ≤ k
    · rw [if_pos ((hmem j hj1).mpr hjle), nextDscrptr_chainName d hn j hj1]
      exact ih (j + 1) (by omega) (by omega) (by omega)
    · have hje : j = k + 1 := by omega
      subst hje
      have hnot : chainName d (k + 1) ∉ ks := by
        intro hin
        exact absurd ((hmem (k + 1) (by omega)).mp hin) (by omega)
      rw [if_neg hnot]


/-! ### Helper lemmas: addSeq -/

theorem addSeq_dup (st : Seqs) (dscrptr sq : List Char)
    (h : normSeq sq ∈ st.useqs) : st.addSeq dscrptr sq = (.dup, st) := by
  simp [Seqs.addSeq, h]

theorem addSeq_invalid (st : Seqs) (dscrptr sq : List Char)
    (h : normSeq sq ∉ st.useqs) (hv : validateSeq (normSeq sq) = false) :
    st.addSeq dscrptr sq = (.invalid, st) := by
  simp [Seqs.addSeq, h, hv]

theorem addSeq_added (st : Seqs) (dscrptr sq : List Char)
    (hfresh : normSeq sq ∉ st.useqs) (hvalid : validateSeq (normSeq sq) = true) :
    st.addSeq dscrptr sq = (.added,
      { st with
        seqs := dictInsert st.seqs
          (uniquify st.dscrptrs (st.seqs.length + 1)
            (if (trim dscrptr).isEmpty then cs "seq_" ++ natToDec (st.seqs.length + 1)
             else trim dscrptr)) (normSeq sq),
        useqs := st.useqs ++ [normSeq sq] }) := by
  simp [Seqs.addSeq, hfresh, hvalid]

theorem addSeq_chain_step (d : List Char) (hd : d.isEmpty = false) (ht : trim d = d)
    (hn : noDecSuffix d = true) (st : Seqs) (k : Nat)
    (hmem : ∀ i, 1 ≤ i → (chainName d i ∈ st.dscrptrs ↔ i ≤ k))
    (hk : k ≤ st.seqs.length)
    (sq : List Char) (hvalid : validateSeq (normSeq sq) = true)
    (hfresh : normSeq sq ∉ st.useqs) :
    st.addSeq d sq = (.added,
      { st with seqs := st.seqs ++ [(chainName d (k + 1), normSeq sq)],
                useqs := st.useqs ++ [normSeq sq] }) := by
  rw [addSeq_added st d sq hfresh hvalid]
  have hu : uniquify st.dscrptrs (st.seqs.length + 1)
      (if (trim d).isEmpty then cs "seq_" ++ natToDec (st.seqs.length + 1) else trim d)
      = chainName d (k + 1) := by
    rw [ht, hd]
    simp only [Bool.false_eq_true, if_false]
    have := uniquify_chain d hn st.dscrptrs k hmem (st.seqs.length + 1) 1
      (by omega) (by omega) (by omega)
    rwa [chainName_one] at this
  rw [hu]
  have hnotin : chainName d (k + 1) ∉ st.seqs.map Prod.fst := by
    intro hin
    have := (hmem (k + 1) (by omega)).mp hin
    omega
  rw [dictInsert_fresh st.seqs (chainName d (k + 1)) (normSeq sq) hnotin]

theorem addAll_chain (d : List Char) (hd : d.isEmpty = false) (ht : trim d = d)
    (hn : noDecSuffix d = true)
    (base : List (List Char × List Char))
    (hbase : ∀ p ∈ base, ∀ i, 1 ≤ i → p.1 ≠ chainName d i) :
    ∀ (sqs : List (List Char)) (st : Seqs) (k : Nat)
      (ch : List (List Char × List Char)),
      st.seqs = base ++ ch →
      ch.map Prod.fst = (List.range k).map (fun i => chainName d (i + 1)) →
      (∀ sq ∈ sqs, validateSeq (normSeq sq) = true) →
      (sqs.map normSeq).Pairwise (fun a b => a ≠ b) →
      (∀ sq ∈ sqs, normSeq sq ∉ st.useqs) →
      (addAll st d sqs).2 = List.replicate sqs.length .added ∧
      (addAll st d sqs).1.seqs = st.seqs ++ chainEntries d k sqs ∧
      (addAll st d sqs).1.useqs = st.useqs ++ sqs.map normSeq := by
  intro sqs
  induction sqs with
  | nil =>
    intro st k ch hseqs hch hvalid hdist hfresh
    simp [addAll, chainEntries]
  | cons sq rest ih =>
    intro st k ch hseqs hch hvalid hdist hfresh
    have hchlen : ch.length = k := by
      have := congrArg List.length hch
      simpa using this
    have hmem : ∀ i, 1 ≤ i → (chainName d i ∈ st.dscrptrs ↔ i ≤ k) := by
      intro i hi
      rw [Seqs.dscrptrs, hseqs, List.map_append, List.mem_append, hch]
      constructor
      · intro hin
        rcases hin with hin | hin
        · rcases List.mem_map.mp hin with ⟨p, hp, hpe⟩
          exact absurd hpe (hbase p hp i hi)
        · rcases List.mem_map.mp hin with ⟨j, hj, hje⟩
          have := chainName_inj d (j + 1) i (by omega) hi hje
          have hjk := List.mem_range.mp hj
          omega
      · intro hik
        right
        refine List.mem_map.mpr ⟨i - 1, List.mem_range.mpr (by omega), ?_⟩
        congr 1
        omega
    have hk : k ≤ st.seqs.length := by
      rw [hseqs, List.length_append]
      omega
    have hstep := addSeq_chain_step d hd ht hn st k hmem hk sq
      (hvalid sq (by simp)) (hfresh sq (by simp))
    have hdist₁ : (rest.map normSeq).Pairwise (fun a b => a ≠ b) := by
      rw [List.map_cons, List.pairwise_cons] at hdist
      exact hdist.2
    have hhead : ∀ b ∈ rest.map normSeq, normSeq sq ≠ b := by
      rw [List.map_cons, List.pairwise_cons] at hdist
      exact hdist.1
    set st₁ : Seqs :=
      { st with seqs := st.seqs ++ [(chainName d (k + 1), normSeq sq)],
                useqs := st.useqs ++ [normSeq sq] } with hst₁
    have hfresh₁ : ∀ sq₁ ∈ rest, normSeq sq₁ ∉ st₁.useqs := by
      intro sq₁ hsq₁
      rw [hst₁]
      simp only [List.mem_append, List.mem_singleton]
      rintro (hin | hin)
      · exact hfresh sq₁ (by simp [hsq₁]) hin
      · exact hhead (normSeq sq₁) (List.mem_map.mpr ⟨sq₁, hsq₁, rfl⟩) hin.symm
    have hseqs₁ : st₁.seqs = base ++ (ch ++ [(chainName d (k + 1), normSeq sq)]) := by
      rw [hst₁]
      simp [hseqs]
    have hch₁ : (ch ++ [(chainName d (k + 1), normSeq sq)]).map Prod.fst
        = (List.range (k + 1)).map (fun i => chainName d (i + 1)) := by
      rw [List.map_append, hch, List.range_succ, List.map_append]
      rfl
    have hrec := ih st₁ (k + 1) (ch ++ [(chainName d (k + 1), normSeq sq)])
      hseqs₁ hch₁ (fun sq₁ h₁ => hvalid sq₁ (by simp [h₁])) hdist₁ hfresh₁
    rw [addAll]
    simp only [hstep]
    refine ⟨?_, ?_, ?_⟩
    · rw [List.length_cons, List.replicate_succ]
      rw [hrec.1]
    · rw [hrec.2.1, hst₁]
      simp [chainEntries, List.append_assoc]
    · rw [hrec.2.2, hst₁]
      simp

/-! ### Helper lemmas: the registry invariant -/

theorem addAccessions_seqs_useqs (st : Seqs) (d : List Char) (accs : List (List Char))
    (sq : List Char) (vrfy : Bool) :
    (st.addAccessions d accs sq vrfy).2.seqs = st.seqs ∧
    (st.addAccessions d accs sq vrfy).2.useqs = st.useqs := by
  rw [Seqs.addAccessions]
  dsimp only
  split_ifs <;> exact ⟨rfl, rfl⟩

theorem addStructuresCore_seqs_useqs (st : Seqs) (d : List Char)
    (structures : List (List Char)) (b : Bool) (st₁ : Seqs)
    (h : st.addStructuresCore d structures = .ok (b, st₁)) :
    st₁.seqs = st.seqs ∧ st₁.useqs = st.useqs := by
  cases structures with
  | nil => simp [Seqs.addStructuresCore] at h
  | cons t rest =>
    simp only [Seqs.addStructuresCore] at h
    split_ifs at h with h₁ h₂
    · simp only [Except.ok.injEq, Prod.mk.injEq] at h
      rw [← h.2]
      exact ⟨rfl, rfl⟩
    · simp only [Except.ok.injEq, Prod.mk.injEq] at h
      rw [← h.2]
      exact ⟨rfl, rfl⟩

theorem addStructures_seqs_useqs (st : Seqs) (d : List Char)
    (structures : List (List Char)) (sq : List Char) (vrfy : Bool) (b : Bool) (st₁ : Seqs)
    (h : st.addStructures d structures sq vrfy = .ok (b, st₁)) :
    st₁.seqs = st.seqs ∧ st₁.useqs = st.useqs := by
  rw [Seqs.addStructures] at h
  by_cases hv : vrfy = true
  · rw [if_pos hv] at h
    dsimp only at h
    by_cases he : (st.verifyDscrptr d sq).isEmpty = true
    · rw [if_pos he] at h
      simp only [Except.ok.injEq, Prod.mk.injEq] at h
      rw [← h.2]
      exact ⟨rfl, rfl⟩
    · rw [if_neg he] at h
      exact addStructuresCore_seqs_useqs st _ structures b st₁ h
  · rw [if_neg hv] at h
    exact addStructuresCore_seqs_useqs st d structures b st₁ h

theorem applyOp_addStructures_seqs_useqs (st : Seqs) (d : List Char)
    (structures : List (List Char)) (sq : List Char) (vrfy : Bool) :
    (applyOp st (.addStructures d structures sq vrfy)).seqs = st.seqs ∧
    (applyOp st (.addStructures d structures sq vrfy)).useqs = st.useqs := by
  rw [applyOp]
  cases hres : st.addStructures d structures sq vrfy with
  | error e => exact ⟨rfl, rfl⟩
  | ok p =>
    obtain ⟨b, st₁⟩ := p
    exact addStructures_seqs_useqs st d structures sq vrfy b st₁ hres

theorem seqsInv_addSeq (st : Seqs) (d sq : List Char) (h : SeqsInv st) :
    SeqsInv (st.addSeq d sq).2 := by
  by_cases hdup : normSeq sq ∈ st.useqs
  · rw [addSeq_dup st d sq hdup]
    exact h
  · by_cases hval : validateSeq (normSeq sq) = true
    · rw [addSeq_added st d sq hdup hval]
      constructor
      · refine pairwise_snd_dictInsert st.seqs _ (normSeq sq) ?_ h.1
        intro w hw hEq
        exact hdup (hEq ▸ h.2 w hw)
      · intro v hv
        rcases mem_snd_dictInsert st.seqs _ (normSeq sq) v hv with h₁ | h₁
        · exact List.mem_append.mpr (Or.inl (h.2 v h₁))
        · exact List.mem_append.mpr (Or.inr (by simp [h₁]))
    · rw [addSeq_invalid st d sq hdup (by simpa using hval)]
      exact h

theorem seqsInv_applyOp (st : Seqs) (op : Op) (h : SeqsInv st) : SeqsInv (applyOp st op) := by
  cases op with
  | addSeq d sq => exact seqsInv_addSeq st d sq h
  | addAccessions d accs sq vrfy =>
    have := addAccessions_seqs_useqs st d accs sq vrfy
    rw [applyOp, SeqsInv, this.1, this.2]
    exact h
  | addStructures d structures sq vrfy =>
    have := applyOp_addStructures_seqs_useqs st d structures sq vrfy
    rw [SeqsInv, this.1, this.2]
    exact h

theorem seqsInv_foldl (ops : List Op) : ∀ st : Seqs, SeqsInv st → SeqsInv (ops.foldl applyOp st) := by
  induction ops with
  | nil => intro st h; exact h
  | cons op rest ih =>
    intro st h
    rw [List.foldl_cons]
    exact ih (applyOp st op) (seqsInv_applyOp st op h)

theorem seqsInv_reachable (st : Seqs) (h : Reachable st) : SeqsInv st := by
  rcases h with ⟨ops, rfl⟩
  exact seqsInv_foldl ops initSeqs (by constructor <;> simp [initSeqs])

/-! ### Polling loop lemmas (claim C7) -/

theorem blastPollGo_head (d : Nat) (ss : List BStatus) (x : Nat) (l : List Nat)
    (h : (blastPollGo d ss).1 = x :: l) : x = d := by
  cases ss with
  | nil => exact absurd h (by simp [blastPollGo])
  | cons s rest => cases s <;> simp [blastPollGo] at h <;> omega

theorem blastPollGo_chain (d : Nat) (ss : List BStatus) :
    List.Chain' (fun a b => b = a + 10) (blastPollGo d ss).1 := by
  induction ss generalizing d with
  | nil => simp [blastPollGo]
  | cons s rest ih =>
    cases s with
    | waiting =>
      rw [blastPollGo]
      dsimp only
      rw [List.chain'_cons']
      refine ⟨?_, ih (d + 10)⟩
      intro y hy
      cases hl : (blastPollGo (d + 10) rest).1 with
      | nil => rw [hl] at hy; simp at hy
      | cons a l =>
        rw [hl] at hy
        simp only [List.head?_cons, Option.mem_def, Option.some.injEq] at hy
        exact hy ▸ blastPollGo_head (d + 10) rest a l hl
    | failed => simp [blastPollGo]
    | expired => simp [blastPollGo]
    | ready => simp [blastPollGo]
    | unknownErr => simp [blastPollGo]

theorem upPollGo_delays (d : Nat) (ss : List UStatus) :
    ∀ x ∈ (upPollGo d ss).1, x = d := by
  induction ss with
  | nil => simp [upPollGo]
  | cons s rest ih =>
    cases s with
    | newJob =>
      intro x hx
      rw [upPollGo] at hx
      dsimp only at hx
      rcases List.mem_cons.mp hx with h | h
      · exact h
      · exact ih x h
    | running =>
      intro x hx
      rw [upPollGo] at hx
      dsimp only at hx
      rcases List.mem_cons.mp hx with h | h
      · exact h
      · exact ih x h
    | absent => simp [upPollGo]
    | otherErr => simp [upPollGo]

/-! ### Hit-matcher run lemmas (claim C8) -/

theorem accPdbFromHit_flag_false (rs : List DescRec) : ∀ pdbs accs : List (List Char),
    accPdbFromHit rs pdbs accs false = (hitPdbAcc rs pdbs, accs) := by
  induction rs with
  | nil => intro pdbs accs; rfl
  | cons r rest ih =>
    intro pdbs accs
    by_cases hp : (cs "pdb|").isPrefixOf r.recId = true
    · simp only [accPdbFromHit, hp, if_true]
      rw [ih]
      simp [hitPdbAcc, List.filter_cons, hp]
    · simp only [accPdbFromHit, hp, Bool.false_eq_true, if_false]
      rw [ih]
      simp [hitPdbAcc, List.filter_cons, hp]

theorem accPdbFromHit_flag_true (rs : List DescRec) : ∀ pdbs accs : List (List Char),
    accPdbFromHit rs pdbs accs true
      = (hitPdbAcc rs pdbs, accs ++ (hitNewAcc rs accs).toList) := by
  induction rs with
  | nil => intro pdbs accs; simp [accPdbFromHit, hitPdbAcc, hitNewAcc]
  | cons r rest ih =>
    intro pdbs accs
    by_cases hp : (cs "pdb|").isPrefixOf r.recId = true
    · simp only [accPdbFromHit, hp, if_true]
      rw [ih]
      have e1 : hitPdbAcc (r :: rest) pdbs
          = hitPdbAcc rest
            (if stripChainId r.accession ∈ pdbs then pdbs
             else pdbs ++ [stripChainId r.accession]) := by
        simp [hitPdbAcc, List.filter_cons, hp]
      have e2 : hitNewAcc (r :: rest) accs = hitNewAcc rest accs := by
        simp [hitNewAcc, List.filter_cons, hp]
      rw [e1, e2]
    · have e1 : hitPdbAcc (r :: rest) pdbs = hitPdbAcc rest pdbs := by
        simp [hitPdbAcc, List.filter_cons, hp]
      by_cases ha : r.accession ∈ accs
      · simp only [accPdbFromHit, hp, Bool.false_eq_true, if_false, if_true, ha, if_pos]
        rw [ih]
        have e2 : hitNewAcc (r :: rest) accs = hitNewAcc rest accs := by
          simp [hitNewAcc, List.filter_cons, hp, List.find?_cons, ha]
        rw [e1, e2]
      · simp only [accPdbFromHit, hp, Bool.false_eq_true, if_false, ha, if_true,
          if_neg (fun h => ha h)]
        rw [accPdbFromHit_flag_false]
        have e2 : hitNewAcc (r :: rest) accs = some r.accession := by
          simp [hitNewAcc, List.filter_cons, hp, List.find?_cons, ha]
        rw [e1, e2]
        rfl

theorem accPdbFromHitSpec_flag_false (rs : List DescRec) : ∀ pdbs accs : List (List Char),
    accPdbFromHitSpec rs pdbs accs false = (hitPdbAcc rs pdbs, accs) := by
  induction rs with
  | nil => intro pdbs accs; rfl
  | cons r rest ih =>
    intro pdbs accs
    by_cases hp : (cs "pdb|").isPrefixOf r.recId = true
    · simp only [accPdbFromHitSpec, hp, if_true]
      rw [ih]
      simp [hitPdbAcc, List.filter_cons, hp]
    · simp only [accPdbFromHitSpec, hp, Bool.false_eq_true, if_false]
      rw [ih]
      simp [hitPdbAcc, List.filter_cons, hp]

/-! ### Claim theorems -/

/-- Claim C1: `_checkhit` on a hit whose first alignment record has identity
i, gap count g, alignment length L and aligned strings h, q returns true iff
i + g ≥ L (identity threshold 1.0) and 10·L > 9·Q (coverage threshold 0.9)
and (g = 0 or both aligned strings have at most one maximal gap run); in
particular identity=90, gaps=10, alignLen=100, queryLen=95 with at most one
gap run per side matches, and alignLen=80 against queryLen=100 fails
coverage. -/
theorem claim1_checkhit_iff :
    (∀ (hit : Hit) (q_len : Nat) (hsp : Hsp) (rest : List Hsp),
      hit.hsps = hsp :: rest →
      (checkhit hit q_len = some true ↔
        (hsp.identity + hsp.gaps ≥ hsp.align_len ∧ 10 * hsp.align_len > 9 * q_len ∧
          (hsp.gaps = 0 ∨ (countGapRuns hsp.hseq ≤ 1 ∧ countGapRuns hsp.qseq ≤ 1))))) ∧
    (∀ (h q : List Char) (ds : List DescRec),
      countGapRuns h ≤ 1 → countGapRuns q ≤ 1 →
      checkhit ⟨[⟨90, 10, 100, h, q⟩], ds⟩ 95 = some true) ∧
    (∀ (hsp : Hsp) (rest : List Hsp) (ds : List DescRec),
      hsp.align_len = 80 → checkhit ⟨hsp :: rest, ds⟩ 100 = some false) := by
  have main : ∀ (hit : Hit) (q_len : Nat) (hsp : Hsp) (rest : List Hsp),
      hit.hsps = hsp :: rest →
      (checkhit hit q_len = some true ↔
        (hsp.identity + hsp.gaps ≥ hsp.align_len ∧ 10 * hsp.align_len > 9 * q_len ∧
          (hsp.gaps = 0 ∨ (countGapRuns hsp.hseq ≤ 1 ∧ countGapRuns hsp.qseq ≤ 1)))) := by
    intro hit q_len hsp rest hh
    obtain ⟨hs, ds⟩ := hit
    simp only at hh
    subst hh
    simp only [checkhit, Option.some.injEq]
    constructor
    · intro hx
      split_ifs at hx with h₁ h₂
      exact ⟨h₁.1, h₁.2, h₂⟩
    · rintro ⟨ha, hb, hc⟩
      rw [if_pos ⟨ha, hb⟩, if_pos hc]
  refine ⟨main, ?_, ?_⟩
  · intro h q ds hh hq
    exact (main ⟨[⟨90, 10, 100, h, q⟩], ds⟩ 95 ⟨90, 10, 100, h, q⟩ [] rfl).mpr
      ⟨by norm_num, by norm_num, Or.inr ⟨hh, hq⟩⟩
  · intro hsp rest ds hlen
    have hno : ¬(hsp.identity + hsp.gaps ≥ hsp.align_len ∧ 10 * hsp.align_len > 9 * 100) := by
      rintro ⟨-, hb⟩
      rw [hlen] at hb
      omega
    simp only [checkhit, Option.some.injEq]
    rw [if_neg hno]

/-- Witness for C1: the two example hits of the claim, decided concretely
through the main theorem. -/
theorem claim1_checkhit_iff_witness :
    checkhit ⟨[⟨90, 10, 100, cs "AAA", cs "AAA"⟩], []⟩ 95 = some true ∧
    checkhit ⟨[⟨90, 10, 80, cs "AAA", cs "AAA"⟩], []⟩ 100 = some false :=
  ⟨claim1_checkhit_iff.2.1 (cs "AAA") (cs "AAA") [] (by decide) (by decide),
   claim1_checkhit_iff.2.2 ⟨90, 10, 80, cs "AAA", cs "AAA"⟩ [] [] rfl⟩

/-- Counterexample to C4: for the descriptor "x_5" (which ends in an
underscore and digits), two distinct valid sequences receive descriptors
"x_5" and "x_6" — not "x_5" and "x_5_2" as the claim's d, d_2, ..., d_N
schema predicts. -/
theorem claim4_counterexample :
    ((initSeqs.addSeq (cs "x_5") (cs "AAA")).2.addSeq (cs "x_5") (cs "CCC")).1
      = AddOutcome.added ∧
    ((initSeqs.addSeq (cs "x_5") (cs "AAA")).2.addSeq (cs "x_5") (cs "CCC")).2.dscrptrs
      = [cs "x_5", cs "x_6"] ∧
    cs "x_6" ≠ cs "x_5_2" :=
  ⟨by decide, by decide, by decide⟩

/-- Claim C4 (amended): `add_seq` returns Duplicate without mutation when
the normalized sequence is stored, Invalid when it fails the alphabet
check; an empty descriptor is assigned seq_(size+1); and N valid, distinct
sequences submitted under one non-empty descriptor d that does not itself
end in an underscore followed by digits, into a registry holding no
descriptor of the collision chain of d, receive descriptors
d, d_2, ..., d_N in submission order. -/
theorem claim4_amended :
    (∀ (st : Seqs) (d sq : List Char), normSeq sq ∈ st.useqs →
      st.addSeq d sq = (.dup, st)) ∧
    (∀ (st : Seqs) (d sq : List Char), normSeq sq ∉ st.useqs →
      validateSeq (normSeq sq) = false → st.addSeq d sq = (.invalid, st)) ∧
    (∀ (st : Seqs) (sq : List Char), normSeq sq ∉ st.useqs →
      validateSeq (normSeq sq) = true →
      (cs "seq_" ++ natToDec (st.seqs.length + 1)) ∉ st.dscrptrs →
      st.addSeq [] sq = (.added,
        { st with
          seqs := st.seqs ++ [(cs "seq_" ++ natToDec (st.seqs.length + 1), normSeq sq)],
          useqs := st.useqs ++ [normSeq sq] })) ∧
    (∀ (d : List Char) (sqs : List (List Char)) (st₀ : Seqs),
      d.isEmpty = false → trim d = d → noDecSuffix d = true →
      (∀ p ∈ st₀.seqs, ∀ i, 1 ≤ i → p.1 ≠ chainName d i) →
      (∀ sq ∈ sqs, validateSeq (normSeq sq) = true) →
      (sqs.map normSeq).Pairwise (fun a b => a ≠ b) →
      (∀ sq ∈ sqs, normSeq sq ∉ st₀.useqs) →
      (addAll st₀ d sqs).2 = List.replicate sqs.length .added ∧
      (addAll st₀ d sqs).1.seqs = st₀.seqs ++ chainEntries d 0 sqs) := by
  refine ⟨addSeq_dup, addSeq_invalid, ?_, ?_⟩
  · intro st sq hfresh hvalid hname
    rw [addSeq_added st [] sq hfresh hvalid]
    have ht : trim ([] : List Char) = [] := rfl
    rw [ht]
    simp only [List.isEmpty_nil, if_true]
    rw [uniquify, if_neg hname]
    rw [dictInsert_fresh st.seqs _ (normSeq sq) hname]
  · intro d sqs st₀ hd ht hn hbase hvalid hdist hfresh
    have h := addAll_chain d hd ht hn st₀.seqs hbase sqs st₀ 0 []
      (by simp) (by simp) hvalid hdist hfresh
    exact ⟨h.1, h.2.1⟩

/-- Witness for C4 (amended): two distinct sequences under descriptor "d"
from an empty registry give entries ("d", "AAA") then ("d_2", "CCC"). -/
theorem claim4_amended_witness :
    (addAll initSeqs (cs "d") [cs "AAA", cs "CCC"]).2
      = List.replicate ([cs "AAA", cs "CCC"] : List (List Char)).length AddOutcome.added ∧
    (addAll initSeqs (cs "d") [cs "AAA", cs "CCC"]).1.seqs
      = initSeqs.seqs ++ chainEntries (cs "d") 0 [cs "AAA", cs "CCC"] :=
  claim4_amended.2.2.2 (cs "d") [cs "AAA", cs "CCC"] initSeqs
    (by decide) (by decide) (by decide)
    (by intro p hp; simp [initSeqs] at hp)
    (by decide) (by decide)
    (by intro sq hsq hin; simp [initSeqs] at hin)

/-- Claim C5: in every reachable registry state no two stored entries hold
an identical normalized sequence, and for a valid fresh sequence adding it
twice yields Added then Duplicate, the second call mutating nothing, with
exactly one stored entry holding that sequence. -/
theorem claim5_unique_invariant :
    (∀ st : Seqs, Reachable st → (st.seqs.map Prod.snd).Pairwise (fun a b => a ≠ b)) ∧
    (∀ (st : Seqs) (d₁ d₂ sq₁ sq₂ : List Char), Reachable st →
      validateSeq (normSeq sq₁) = true → normSeq sq₁ ∉ st.useqs →
      normSeq sq₂ = normSeq sq₁ →
      (st.addSeq d₁ sq₁).1 = .added ∧
      ((st.addSeq d₁ sq₁).2.addSeq d₂ sq₂).1 = .dup ∧
      ((st.addSeq d₁ sq₁).2.addSeq d₂ sq₂).2 = (st.addSeq d₁ sq₁).2 ∧
      ((st.addSeq d₁ sq₁).2.seqs.filter (fun e => e.2 = normSeq sq₁)).length = 1) := by
  constructor
  · intro st h
    exact (seqsInv_reachable st h).1
  · intro st d₁ d₂ sq₁ sq₂ hr hv hf he
    have hinv := seqsInv_reachable st hr
    have h1 := addSeq_added st d₁ sq₁ hf hv
    have hdup2 : normSeq sq₂ ∈ (st.addSeq d₁ sq₁).2.useqs := by
      rw [h1, he]
      simp
    refine ⟨by rw [h1], ?_, ?_, ?_⟩
    · rw [addSeq_dup _ d₂ sq₂ hdup2]
    · rw [addSeq_dup _ d₂ sq₂ hdup2]
    · rw [h1]
      exact filter_snd_dictInsert_one st.seqs _ (normSeq sq₁)
        (fun w hw hEq => hf (hEq ▸ hinv.2 w hw))

/-- Witness for C5: the double add of "AAA" into the empty registry. -/
theorem claim5_unique_invariant_witness :
    (initSeqs.addSeq (cs "d") (cs "AAA")).1 = .added ∧
    ((initSeqs.addSeq (cs "d") (cs "AAA")).2.addSeq (cs "e") (cs "AAA")).1 = .dup ∧
    ((initSeqs.addSeq (cs "d") (cs "AAA")).2.addSeq (cs "e") (cs "AAA")).2
      = (initSeqs.addSeq (cs "d") (cs "AAA")).2 ∧
    ((initSeqs.addSeq (cs "d") (cs "AAA")).2.seqs.filter
      (fun e => e.2 = normSeq (cs "AAA"))).length = 1 :=
  claim5_unique_invariant.2 initSeqs (cs "d") (cs "e") (cs "AAA") (cs "AAA")
    ⟨[], rfl⟩ (by decide) (by decide) rfl

/-- Counterexample to C7: in the UniProt id-mapping polling loop the delay
stays at 15 across consecutive Waiting (RUNNING) transitions — it does not
strictly increase. -/
theorem claim7_counterexample :
    (upPoll [UStatus.running, UStatus.running, UStatus.absent]).1 = [15, 15] ∧
    (upPoll [UStatus.running, UStatus.running, UStatus.absent]).2 = true ∧
    ¬ List.Chain' (fun a b : Nat => a < b) [15, 15] :=
  ⟨rfl, rfl, by simp [List.chain'_cons]⟩

/-- Claim C7 (amended): in the similarity-search polling loop every Waiting
transition increases the delay by exactly 10 (hence strictly), and the
delay never resets or decreases; in the batch id-mapping polling loops the
delay is the constant 15 and never changes. -/
theorem claim7_amended :
    (∀ ss : List BStatus, List.Chain' (fun a b => b = a + 10) (blastPoll ss).1) ∧
    (∀ ss : List BStatus, List.Chain' (fun a b => a < b) (blastPoll ss).1) ∧
    (∀ (ss : List UStatus) (x : Nat), x ∈ (upPoll ss).1 → x = 15) := by
  refine ⟨fun ss => blastPollGo_chain 10 ss, fun ss => ?_,
    fun ss x hx => upPollGo_delays 15 ss x hx⟩
  exact List.Chain'.imp (fun a b h => by omega) (blastPollGo_chain 10 ss)

/-- Witness for C7 (amended): a concrete waiting-then-ready run of the
similarity-search loop, and the delay value of a mapping-job poll. -/
theorem claim7_amended_witness :
    List.Chain' (fun a b => b = a + 10)
      (blastPoll [BStatus.waiting, BStatus.ready]).1 ∧
    (15 : Nat) = 15 :=
  ⟨claim7_amended.1 [BStatus.waiting, BStatus.ready],
   claim7_amended.2.2 [UStatus.running, UStatus.absent] 15 (by decide)⟩

/-- Counterexample to C8: with the per-query accession list already holding
"A", a hit whose records are two non-structure records with accessions "A"
and "B" contributes "B" as well — the record after the first non-structure
record is not ignored, because the flag is only cleared when an accession
is actually appended. -/
theorem claim8_counterexample :
    accPdbFromHit [⟨cs "gb|X1", cs "A"⟩, ⟨cs "gb|X2", cs "B"⟩] [cs "pdb"] [cs "A"] true
      = ([cs "pdb"], [cs "A", cs "B"]) ∧
    accPdbFromHitSpec [⟨cs "gb|X1", cs "A"⟩, ⟨cs "gb|X2", cs "B"⟩] [cs "pdb"] [cs "A"] true
      = ([cs "pdb"], [cs "A"]) ∧
    ([cs "A", cs "B"] : List (List Char)) ≠ [cs "A"] :=
  ⟨by decide, by decide, by decide⟩

/-- Claim C8 (amended): `_acc_pdb_from_hit` adds every structure-database
record's chain-stripped base identifier to the pdb list if not present, and
appends (at most) one accession per hit: that of the first non-structure
record whose accession is not already accumulated, ignoring every record
after that append; when the accumulated accession list is empty this is
exactly the first non-structure record, matching the claim's wording. -/
theorem claim8_amended :
    (∀ (rs : List DescRec) (pdbs accs : List (List Char)),
      accPdbFromHit rs pdbs accs true
        = (hitPdbAcc rs pdbs, accs ++ (hitNewAcc rs accs).toList)) ∧
    (∀ (rs : List DescRec) (pdbs : List (List Char)),
      accPdbFromHit rs pdbs [] true = accPdbFromHitSpec rs pdbs [] true) := by
  refine ⟨accPdbFromHit_flag_true, ?_⟩
  intro rs pdbs
  induction rs generalizing pdbs with
  | nil => rfl
  | cons r rest ih =>
    by_cases hp : (cs "pdb|").isPrefixOf r.recId = true
    · simp only [accPdbFromHit, accPdbFromHitSpec, hp, if_true]
      exact ih _
    · have hmem : r.accession ∉ ([] : List (List Char)) := List.not_mem_nil _
      simp only [accPdbFromHit, accPdbFromHitSpec, hp, Bool.false_eq_true, if_false,
        if_true, if_neg hmem]
      rw [accPdbFromHit_flag_false, accPdbFromHitSpec_flag_false]

/-- Claim C10: the verification pattern is built from the raw candidate, so
a candidate containing the regex wildcard resolves to a stored descriptor
("dXc") that is neither the candidate ("d.c") nor the candidate followed by
an underscore suffix, and verified addAccessions/addStructures then attach
their evidence under that other descriptor. -/
theorem claim10_regex_injection :
    regexCexSt.verifyDscrptr (cs "d.c") (cs "AAA") = cs "dXc" ∧
    (∀ suf : List Char, cs "dXc" ≠ cs "d.c" ++ suf) ∧
    (regexCexSt.addAccessions (cs "d.c") [cs "P12345"] (cs "AAA") true).1 = true ∧
    lookupD (regexCexSt.addAccessions (cs "d.c") [cs "P12345"] (cs "AAA") true).2.accessions
      (cs "dXc") = some [cs "P12345"] ∧
    (regexCexSt.addStructures (cs "d.c") [cs "pdb", cs "1ABC"] (cs "AAA") true).toOption
      = some (true, { regexCexSt with structures := [(cs "dXc", [cs "pdb", cs "1ABC"])] }) := by
  refine ⟨by decide, ?_, by decide, by decide, by decide⟩
  intro suf h
  have h₂ : ('d' :: 'X' :: 'c' :: ([] : List Char))
      = ('d' :: '.' :: 'c' :: ([] : List Char)) ++ suf := h
  cases suf with
  | nil => exact absurd h₂ (by decide)
  | cons a l =>
    injection h₂ with h₃ h₄
    injection h₄ with h₅ h₆
    exact absurd h₅ (by decide)

/-! ### Reachable states store no empty descriptor

This justifies the nonemptiness hypothesis of the C6 theorem: the empty
string that `_verify_dscrptr` returns for "not found" can never collide
with a stored descriptor, because `add_seq` never stores an empty one. -/

theorem nextDscrptr_ne_nil (d : List Char) : nextDscrptr d ≠ [] := by
  rw [nextDscrptr]
  rcases rsplitLast d with ⟨base, _ | suf⟩
  · simp
  · dsimp only
    split_ifs <;> simp

theorem uniquify_ne_nil (ks : List (List Char)) :
    ∀ (fuel : Nat) (d : List Char), d ≠ [] → uniquify ks fuel d ≠ [] := by
  intro fuel
  induction fuel with
  | zero => intro d h; exact h
  | succ fuel ih =>
    intro d h
    rw [uniquify]
    split_ifs
    · exact ih (nextDscrptr d) (nextDscrptr_ne_nil d)
    · exact h

theorem mem_fst_dictInsert {β : Type} (m : List (List Char × β)) (k : List Char) (v : β)
    (w : List Char) (h : w ∈ (dictInsert m k v).map Prod.fst) :
    w ∈ m.map Prod.fst ∨ w = k := by
  induction m with
  | nil =>
    right
    rw [show dictInsert ([] : List (List Char × β)) k v = [(k, v)] from rfl] at h
    rw [List.map_cons, List.map_nil, List.mem_singleton] at h
    exact h
  | cons p rest ih =>
    obtain ⟨k₁, v₁⟩ := p
    by_cases hk : k₁ = k
    · rw [dictInsert, if_pos hk, List.map_cons, List.mem_cons] at h
      rcases h with h | h
      · left
        rw [List.map_cons, List.mem_cons]
        left; exact h
      · left
        rw [List.map_cons, List.mem_cons]
        right; exact h
    · rw [dictInsert, if_neg hk, List.map_cons, List.mem_cons] at h
      rcases h with h | h
      · left
        rw [List.map_cons, List.mem_cons]
        left; exact h
      · rcases ih h with h₁ | h₁
        · left
          rw [List.map_cons, List.mem_cons]
          right; exact h₁
        · right; exact h₁

theorem addSeq_no_empty_dscrptr (st : Seqs) (d sq : List Char)
    (h : [] ∉ st.dscrptrs) : [] ∉ ((st.addSeq d sq).2).dscrptrs := by
  by_cases hdup : normSeq sq ∈ st.useqs
  · rw [addSeq_dup st d sq hdup]
    exact h
  · by_cases hval : validateSeq (normSeq sq) = true
    · rw [addSeq_added st d sq hdup hval]
      intro hmem
      have hk : uniquify st.dscrptrs (st.seqs.length + 1)
          (if (trim d).isEmpty then cs "seq_" ++ natToDec (st.seqs.length + 1)
           else trim d) ≠ [] := by
        refine uniquify_ne_nil st.dscrptrs (st.seqs.length + 1) _ ?_
        by_cases he : (trim d).isEmpty = true
        · rw [if_pos he]
          simp [cs]
        · rw [if_neg he]
          simpa [List.isEmpty_iff] using he
      rcases mem_fst_dictInsert st.seqs _ (normSeq sq) [] hmem with h₁ | h₁
      · exact h h₁
      · exact hk h₁.symm
    · rw [addSeq_invalid st d sq hdup (by simpa using hval)]
      exact h

theorem reachable_no_empty_dscrptr (st : Seqs) (h : Reachable st) :
    [] ∉ st.dscrptrs := by
  rcases h with ⟨ops, rfl⟩
  rw [runOps]
  have main : ∀ (ops₁ : List Op) (st₀ : Seqs), [] ∉ st₀.dscrptrs →
      [] ∉ (ops₁.foldl applyOp st₀).dscrptrs := by
    intro ops₁
    induction ops₁ with
    | nil => intro st₀ h₀; exact h₀
    | cons op rest ih =>
      intro st₀ h₀
      rw [List.foldl_cons]
      refine ih (applyOp st₀ op) ?_
      cases op with
      | addSeq d sq => exact addSeq_no_empty_dscrptr st₀ d sq h₀
      | addAccessions d accs sq vrfy =>
        rw [applyOp, Seqs.dscrptrs, (addAccessions_seqs_useqs st₀ d accs sq vrfy).1]
        exact h₀
      | addStructures d structures sq vrfy =>
        rw [Seqs.dscrptrs,
          (applyOp_addStructures_seqs_useqs st₀ d structures sq vrfy).1]
        exact h₀
  exact main ops initSeqs (by simp [initSeqs, Seqs.dscrptrs])

/-! ### Scan lemmas for descriptor verification (claim C6) -/

theorem verifyScan_found (st : Seqs) (p s : List Char) : ∀ ks : List (List Char),
    verifyScan st p s ks ≠ [] →
    ∃ pre post, ks = pre ++ verifyScan st p s ks :: post ∧
      reMatchOpt p (verifyScan st p s ks) = true ∧
      st.getSeq (verifyScan st p s ks) = some s ∧
      ∀ k ∈ pre, ¬ (reMatchOpt p k = true ∧ st.getSeq k = some s) := by
  intro ks
  induction ks with
  | nil => intro h; exact absurd rfl h
  | cons k rest ih =>
    intro h
    by_cases hk : reMatchOpt p k = true ∧ st.getSeq k = some s
    · rw [verifyScan, if_pos hk] at h ⊢
      exact ⟨[], rest, rfl, hk.1, hk.2, by simp⟩
    · rw [verifyScan, if_neg hk] at h ⊢
      obtain ⟨pre, post, hks, h₁, h₂, h₃⟩ := ih h
      refine ⟨k :: pre, post, by rw [List.cons_append, ← hks], h₁, h₂, ?_⟩
      intro k₁ hk₁
      rcases List.mem_cons.mp hk₁ with hEq | hmem
      · rw [hEq]; exact hk
      · exact h₃ k₁ hmem

theorem verifyScan_none (st : Seqs) (p s : List Char) : ∀ ks : List (List Char),
    [] ∉ ks → verifyScan st p s ks = [] →
    ∀ k ∈ ks, ¬ (reMatchOpt p k = true ∧ st.getSeq k = some s) := by
  intro ks
  induction ks with
  | nil => intro _ _ k hk; exact absurd hk (List.not_mem_nil k)
  | cons k rest ih =>
    intro hno h k₁ hk₁
    by_cases hk : reMatchOpt p k = true ∧ st.getSeq k = some s
    · rw [verifyScan, if_pos hk] at h
      exact absurd (h ▸ List.mem_cons_self k rest) hno
    · rw [verifyScan, if_neg hk] at h
      rcases List.mem_cons.mp hk₁ with hEq | hmem
      · rw [hEq]; exact hk
      · exact ih (fun hm => hno (List.mem_cons_of_mem k hm)) h k₁ hmem

theorem verifyScan_no_seq (st : Seqs) (p s : List Char) : ∀ ks : List (List Char),
    (∀ k ∈ ks, st.getSeq k ≠ some s) → verifyScan st p s ks = [] := by
  intro ks
  induction ks with
  | nil => intro _; rfl
  | cons k rest ih =>
    intro h
    rw [verifyScan, if_neg (fun hk => h k (List.mem_cons_self k rest) hk.2)]
    exact ih (fun k₁ hm => h k₁ (List.mem_cons_of_mem k hm))

theorem verifyDscrptr_eq_scan (st : Seqs) (d s : List Char) :
    st.verifyDscrptr d s = verifyScan st (dscrptrPat (trim d)) (normSeq s) st.dscrptrs := rfl

/-- Claim C6: `_verify_dscrptr` strips a trailing underscore-digits suffix
from the candidate and returns the first stored descriptor in registry
iteration order that matches the pattern candidatePrefix(_digits)?$ and
whose stored sequence equals the normalized input; the empty result
(NotFound) is returned exactly when no stored descriptor satisfies both
conditions, in particular whenever no stored sequence matches at all. -/
theorem claim6_resolve (st : Seqs) (d s : List Char) (hno : [] ∉ st.dscrptrs) :
    (st.verifyDscrptr d s ≠ [] →
      ∃ pre post, st.dscrptrs = pre ++ st.verifyDscrptr d s :: post ∧
        reMatchOpt (dscrptrPat (trim d)) (st.verifyDscrptr d s) = true ∧
        st.getSeq (st.verifyDscrptr d s) = some (normSeq s) ∧
        ∀ k ∈ pre,
          ¬ (reMatchOpt (dscrptrPat (trim d)) k = true ∧ st.getSeq k = some (normSeq s))) ∧
    (st.verifyDscrptr d s = [] →
      ∀ k ∈ st.dscrptrs,
        ¬ (reMatchOpt (dscrptrPat (trim d)) k = true ∧ st.getSeq k = some (normSeq s))) ∧
    ((∀ k ∈ st.dscrptrs, st.getSeq k ≠ some (normSeq s)) → st.verifyDscrptr d s = []) := by
  rw [verifyDscrptr_eq_scan]
  exact ⟨verifyScan_found st _ _ st.dscrptrs,
    verifyScan_none st _ _ st.dscrptrs hno,
    verifyScan_no_seq st _ _ st.dscrptrs⟩

/-- Witness for C6: resolving the incremented candidate "d_3" against a
registry storing "d" with the matching sequence returns "d". -/
theorem claim6_resolve_witness :
    ∃ pre post, stC6.dscrptrs = pre ++ stC6.verifyDscrptr (cs "d_3") (cs "AAA") :: post ∧
      reMatchOpt (dscrptrPat (trim (cs "d_3"))) (stC6.verifyDscrptr (cs "d_3") (cs "AAA")) = true ∧
      stC6.getSeq (stC6.verifyDscrptr (cs "d_3") (cs "AAA")) = some (normSeq (cs "AAA")) ∧
      ∀ k ∈ pre, ¬ (reMatchOpt (dscrptrPat (trim (cs "d_3"))) k = true ∧
        stC6.getSeq k = some (normSeq (cs "AAA"))) :=
  (claim6_resolve stC6 (cs "d_3") (cs "AAA") (by decide)).1 (by decide)

/-! ### addStructuresCore case lemmas (claim C9) -/

theorem addStructuresCore_nil (st : Seqs) (d : List Char) :
    st.addStructuresCore d [] = .error (cs "invalid structure type in first element") := rfl

theorem addStructuresCore_bad_tag (st : Seqs) (d t : List Char) (rest : List (List Char))
    (h₁ : t ≠ cs "pdb") (h₂ : t ≠ cs "EBI-AF") :
    st.addStructuresCore d (t :: rest)
      = .error (cs "invalid structure type in first element") := by
  simp only [Seqs.addStructuresCore]
  rw [if_neg (fun h => h.elim h₁ h₂)]

theorem addStructuresCore_tag_only (st : Seqs) (d t : List Char)
    (h : t = cs "pdb" ∨ t = cs "EBI-AF") :
    st.addStructuresCore d [t] = .ok (true, st) := by
  simp only [Seqs.addStructuresCore]
  rw [if_pos h]
  simp

theorem addStructuresCore_store (st : Seqs) (d t : List Char) (rest : List (List Char))
    (h : t = cs "pdb" ∨ t = cs "EBI-AF") (hr : rest ≠ []) :
    st.addStructuresCore d (t :: rest)
      = .ok (true, { st with structures := dictInsert st.structures d (t :: rest) }) := by
  simp only [Seqs.addStructuresCore]
  rw [if_pos h, if_pos (by simpa [List.length_pos] using hr)]

theorem addStructures_to_core (st : Seqs) (dscrptr sq : List Char)
    (structures : List (List Char)) (vrfy : Bool)
    (hv : vrfy = false ∨ st.verifyDscrptr dscrptr sq ≠ []) :
    st.addStructures dscrptr structures sq vrfy
      = st.addStructuresCore (resolvedD st dscrptr sq vrfy) structures := by
  rw [Seqs.addStructures, resolvedD]
  cases vrfy with
  | false => rw [if_neg (by simp), if_neg (by simp)]
  | true =>
    rcases hv with hv | hv
    · exact absurd hv (by simp)
    · rw [if_pos rfl, if_pos rfl]
      dsimp only
      rw [if_neg (by simpa [List.isEmpty_iff] using hv)]

/-- Claim C9: after successful (or skipped) verification, `add_structures`
raises ValueError whenever the supplied list is empty or its first element
is not one of the closed tags pdb / EBI-AF; with a valid tag it returns
success, storing nothing when the list holds only the tag (prior evidence
untouched) and wholesale-replacing the stored list when at least one
structure reference follows the tag. -/
theorem claim9_add_structures (st : Seqs) (dscrptr sq : List Char)
    (structures : List (List Char)) (vrfy : Bool)
    (hv : vrfy = false ∨ st.verifyDscrptr dscrptr sq ≠ []) :
    (structures = [] → st.addStructures dscrptr structures sq vrfy
        = .error (cs "invalid structure type in first element")) ∧
    (∀ t rest, structures = t :: rest → t ≠ cs "pdb" → t ≠ cs "EBI-AF" →
      st.addStructures dscrptr structures sq vrfy
        = .error (cs "invalid structure type in first element")) ∧
    (∀ t, structures = [t] → (t = cs "pdb" ∨ t = cs "EBI-AF") →
      st.addStructures dscrptr structures sq vrfy = .ok (true, st)) ∧
    (∀ t rest, structures = t :: rest → rest ≠ [] → (t = cs "pdb" ∨ t = cs "EBI-AF") →
      ∃ st₁, st.addStructures dscrptr structures sq vrfy = .ok (true, st₁) ∧
        st₁.seqs = st.seqs ∧ st₁.useqs = st.useqs ∧ st₁.accessions = st.accessions ∧
        st₁.getStructures (resolvedD st dscrptr sq vrfy) = some structures ∧
        ∀ k, k ≠ resolvedD st dscrptr sq vrfy → st₁.getStructures k = st.getStructures k) := by
  rw [addStructures_to_core st dscrptr sq structures vrfy hv]
  refine ⟨?_, ?_, ?_, ?_⟩
  · rintro rfl
    exact addStructuresCore_nil st _
  · rintro t rest rfl h₁ h₂
    exact addStructuresCore_bad_tag st _ t rest h₁ h₂
  · rintro t rfl h
    exact addStructuresCore_tag_only st _ t h
  · rintro t rest rfl hr h
    rw [addStructuresCore_store st _ t rest h hr]
    refine ⟨_, rfl, rfl, rfl, rfl, ?_, ?_⟩
    · exact lookupD_dictInsert_self st.structures _ (t :: rest)
    · intro k hk
      exact lookupD_dictInsert_ne st.structures _ k (t :: rest) hk

/-- Witness for C9: storing a pdb-tagged list with one reference under a
fresh descriptor with verification skipped. -/
theorem claim9_add_structures_witness :
    ∃ st₁, initSeqs.addStructures (cs "d") [cs "pdb", cs "1ABC"] (cs "AAA") false
        = .ok (true, st₁) ∧
      st₁.seqs = initSeqs.seqs ∧ st₁.useqs = initSeqs.useqs ∧
      st₁.accessions = initSeqs.accessions ∧
      st₁.getStructures (resolvedD initSeqs (cs "d") (cs "AAA") false)
        = some [cs "pdb", cs "1ABC"] ∧
      ∀ k, k ≠ resolvedD initSeqs (cs "d") (cs "AAA") false →
        st₁.getStructures k = initSeqs.getStructures k :=
  (claim9_add_structures initSeqs (cs "d") (cs "AAA") [cs "pdb", cs "1ABC"] false
    (Or.inl rfl)).2.2.2 (cs "pdb") [cs "1ABC"] rfl (by decide) (Or.inl rfl)

/-! ### Loop characterizations for the af and pd passes (claims C2, C3) -/

theorem afLoop_eq (lookup : List Char → Option (List Char)) : ∀ accs : List (List Char),
    afLoop lookup accs = (afFound lookup accs, afQueried lookup accs) := by
  intro accs
  induction accs with
  | nil => rfl
  | cons a rest ih =>
    cases hl : lookup a with
    | none =>
      have htw : (a :: rest).takeWhile (fun x => (lookup x).isSome) = [] := by
        simp [List.takeWhile, hl]
      simp only [afLoop, hl, afFound, afQueried, htw]
      simp
    | some url =>
      have htw : (a :: rest).takeWhile (fun x => (lookup x).isSome)
          = a :: rest.takeWhile (fun x => (lookup x).isSome) := by
        simp [List.takeWhile, hl]
      simp only [afLoop, hl, ih, afFound, afQueried, htw, List.filterMap_cons,
        List.length_cons, List.take_succ_cons]

theorem pdAdd_extends (ids : List (List Char)) : ∀ ps : List (List Char),
    ∃ t, pdAdd ps ids = ps ++ t := by
  induction ids with
  | nil => intro ps; exact ⟨[], by simp [pdAdd]⟩
  | cons x rest ih =>
    intro ps
    rw [show pdAdd ps (x :: rest)
      = pdAdd (if stripChainId x ∈ ps then ps else ps ++ [stripChainId x]) rest from rfl]
    by_cases hx : stripChainId x ∈ ps
    · rw [if_pos hx]
      exact ih ps
    · rw [if_neg hx]
      obtain ⟨t, ht⟩ := ih (ps ++ [stripChainId x])
      exact ⟨[stripChainId x] ++ t, by rw [ht, List.append_assoc]⟩

theorem foldlSearch_extends (search : List Char → Option (List (List Char))) :
    ∀ (xs : List (List Char)) (ps : List (List Char)),
    ∃ t, xs.foldl
      (fun ps a =>
        match search a with
        | some ids => pdAdd ps ids
        | none => ps) ps = ps ++ t := by
  intro xs
  induction xs with
  | nil => intro ps; exact ⟨[], by simp⟩
  | cons a rest ih =>
    intro ps
    rw [List.foldl_cons]
    cases hs : search a with
    | none =>
      obtain ⟨t, ht⟩ := ih ps
      exact ⟨t, by simpa [hs] using ht⟩
    | some ids =>
      obtain ⟨t₁, ht₁⟩ := pdAdd_extends ids ps
      obtain ⟨t₂, ht₂⟩ := ih (pdAdd ps ids)
      refine ⟨t₁ ++ t₂, ?_⟩
      simp only [hs]
      rw [ht₂, ht₁, List.append_assoc]

theorem pdFound_extends (search : List Char → Option (List (List Char)))
    (accs : List (List Char)) : ∀ ps : List (List Char),
    ∃ t, pdFound search accs ps = ps ++ t := by
  intro ps
  exact foldlSearch_extends search (accs.takeWhile fun a => (search a).isSome) ps

theorem pdSeed_head (st : Seqs) (d : List Char) :
    ∃ s, pdSeed st d = cs "pdb" :: s := by
  rw [pdSeed]
  cases hg : st.getStructures d with
  | none => exact ⟨[], rfl⟩
  | some l =>
    cases l with
    | nil => exact ⟨[], rfl⟩
    | cons t rest =>
      by_cases ht : t = cs "pdb"
      · subst ht
        refine ⟨rest, ?_⟩
        simp
      · refine ⟨[], ?_⟩
        simp [ht]

theorem pdLoop_eq (search : List Char → Option (List (List Char))) :
    ∀ (accs : List (List Char)) (pdbs : List (List Char)),
    pdLoop search accs pdbs = (pdFound search accs pdbs, pdQueried search accs) := by
  intro accs
  induction accs with
  | nil => intro pdbs; rfl
  | cons a rest ih =>
    intro pdbs
    cases hs : search a with
    | none =>
      have htw : (a :: rest).takeWhile (fun x => (search x).isSome) = [] := by
        simp [List.takeWhile, hs]
      simp only [pdLoop, hs, pdFound, pdQueried, htw]
      simp
    | some ids =>
      have htw : (a :: rest).takeWhile (fun x => (search x).isSome)
          = a :: rest.takeWhile (fun x => (search x).isSome) := by
        simp [List.takeWhile, hs]
      simp only [pdLoop, hs, ih, pdFound, pdQueried, pdAdd, htw, List.foldl_cons,
        List.length_cons, List.take_succ_cons]

/-- Counterexample to C2: with a descriptor whose two accessions both have
predicted models, `from_uniprot` queries the second accession even though
the first already yielded a model, and stores both models — the loop does
not short-circuit on the first accession that yields a model (it stops at
the first 404 instead). -/
theorem claim2_counterexample :
    (fromUniprot afCexLookup afCexSt).2 = [cs "A1", cs "A2"] ∧
    cs "A2" ∈ (fromUniprot afCexLookup afCexSt).2 ∧
    (fromUniprot afCexLookup afCexSt).1.getStructures (cs "d")
      = some [cs "EBI-AF", cs "u1.cif", cs "u2.cif"] ∧
    (afLoopSpec afCexLookup [cs "A1", cs "A2"]).2 = [cs "A1"] ∧
    (afLoopSpec afCexLookup [cs "A1", cs "A2"]).1 = [cs "u1.cif"] ∧
    ([cs "EBI-AF", cs "u1.cif", cs "u2.cif"] : List (List Char))
      ≠ [cs "EBI-AF", cs "u1.cif"] :=
  ⟨by decide, by decide, by decide, by decide, by decide, by decide⟩

/-- Claim C2 (amended): the fallback runs only for descriptors with no
stored structures; its loop queries the accessions in order, collecting the
model of every accession that yields one, and stops at the first accession
that yields no model (accessions after it are not queried); the collected
models, tagged EBI-AF, are stored iff at least one model was found. -/
theorem claim2_amended :
    (∀ (lookup : List Char → Option (List Char)) (accs : List (List Char)),
      afLoop lookup accs = (afFound lookup accs, afQueried lookup accs)) ∧
    (∀ (lookup : List Char → Option (List Char)) (st : Seqs) (d : List Char)
        (accs : List (List Char)),
      st.accessions = [(d, accs)] →
      (((st.getStructures d).getD []).isEmpty = false → fromUniprot lookup st = (st, [])) ∧
      (((st.getStructures d).getD []).isEmpty = true →
        (fromUniprot lookup st).2 = afQueried lookup accs ∧
        (fromUniprot lookup st).1 =
          (if (afFound lookup accs).isEmpty = true then st
           else { st with
                  structures :=
                    dictInsert st.structures d (cs "EBI-AF" :: afFound lookup accs) }))) := by
  refine ⟨afLoop_eq, ?_⟩
  intro lookup st d accs hacc
  constructor
  · intro hne
    rw [fromUniprot, hacc, fromUniprotGo, if_neg (by simp [hne])]
    rfl
  · intro hemp
    rw [fromUniprot, hacc, fromUniprotGo, if_pos hemp]
    dsimp only
    rw [afLoop_eq lookup accs]
    rw [addStructures_to_core st d [] (cs "EBI-AF" :: (afFound lookup accs, afQueried lookup accs).1)
      false (Or.inl rfl)]
    rcases hfound : afFound lookup accs with _ | ⟨u, us⟩
    · rw [show resolvedD st d [] false = d from rfl]
      rw [addStructuresCore_tag_only st d (cs "EBI-AF") (Or.inr rfl)]
      simp [fromUniprotGo, hfound]
    · rw [show resolvedD st d [] false = d from rfl]
      rw [addStructuresCore_store st d (cs "EBI-AF") (u :: us) (Or.inr rfl) (by simp)]
      simp [fromUniprotGo, hfound, hacc]

/-- Witness for C2 (amended): the concrete two-accession state. -/
theorem claim2_amended_witness :
    (fromUniprot afCexLookup afCexSt).2 = afQueried afCexLookup [cs "A1", cs "A2"] ∧
    (fromUniprot afCexLookup afCexSt).1 =
      (if (afFound afCexLookup [cs "A1", cs "A2"]).isEmpty = true then afCexSt
       else { afCexSt with
              structures :=
                dictInsert afCexSt.structures (cs "d")
                  (cs "EBI-AF" :: afFound afCexLookup [cs "A1", cs "A2"]) }) :=
  ((claim2_amended.2 afCexLookup afCexSt (cs "d") [cs "A1", cs "A2"] rfl).2 (by decide))

/-- Counterexample to C3: with two accessions of which the first has no
structure-search results (204) and the second has one, `uniprot_to_pdb`
queries only the first accession — the second is never queried and the
state keeps no structures, while the spec-side loop that queries every
accession would find "1ABC". -/
theorem claim3_counterexample :
    (uniprotToPdb pdCexSearch pdCexSt).2 = [cs "A1"] ∧
    cs "A2" ∉ (uniprotToPdb pdCexSearch pdCexSt).2 ∧
    (uniprotToPdb pdCexSearch pdCexSt).1 = pdCexSt ∧
    pdCexSt.getStructures (cs "d") = none ∧
    (pdLoopSpec pdCexSearch [cs "A1", cs "A2"] [cs "pdb"]).2 = [cs "A1", cs "A2"] ∧
    (pdLoopSpec pdCexSearch [cs "A1", cs "A2"] [cs "pdb"]).1 = [cs "pdb", cs "1ABC"] ∧
    ([cs "A1"] : List (List Char)) ≠ [cs "A1", cs "A2"] :=
  ⟨by decide, by decide, by decide, by decide, by decide, by decide, by decide⟩

/-- Claim C3 (amended): for each descriptor the accessions are queried in
order until the first one whose structure search returns the no-results
sentinel, which ends the querying for that descriptor (accessions after it
are not queried); identifiers found before that point are chain-stripped
and dedup-appended to the seed (the previously stored list when tagged pdb,
a bare pdb tag otherwise), and the stored StructureSet is overwritten with
that union, tagged pdb, iff it contains at least one identifier. -/
theorem claim3_amended :
    (∀ (search : List Char → Option (List (List Char))) (accs pdbs : List (List Char)),
      pdLoop search accs pdbs = (pdFound search accs pdbs, pdQueried search accs)) ∧
    (∀ (search : List Char → Option (List (List Char))) (st : Seqs) (d : List Char)
        (accs : List (List Char)),
      st.accessions = [(d, accs)] →
      (uniprotToPdb search st).2 = pdQueried search accs ∧
      (uniprotToPdb search st).1 =
        (if (pdFound search accs (pdSeed st d)).length ≤ 1 then st
         else { st with
                structures :=
                  dictInsert st.structures d (pdFound search accs (pdSeed st d)) })) := by
  refine ⟨pdLoop_eq, ?_⟩
  intro search st d accs hacc
  rw [uniprotToPdb, hacc, uniprotToPdbGo]
  dsimp only
  rw [pdLoop_eq search accs (pdSeed st d)]
  rw [addStructures_to_core st d [] (pdFound search accs (pdSeed st d), pdQueried search accs).1
    false (Or.inl rfl)]
  rw [show resolvedD st d [] false = d from rfl]
  obtain ⟨s₀, hs₀⟩ := pdSeed_head st d
  obtain ⟨t, ht⟩ := pdFound_extends search accs (pdSeed st d)
  have hshape : pdFound search accs (pdSeed st d) = cs "pdb" :: (s₀ ++ t) := by
    rw [ht, hs₀]
    rfl
  rcases hrest : s₀ ++ t with _ | ⟨x, xs⟩
  · rw [hrest] at hshape
    rw [show (pdFound search accs (pdSeed st d), pdQueried search accs).1
      = pdFound search accs (pdSeed st d) from rfl, hshape]
    rw [addStructuresCore_tag_only st d (cs "pdb") (Or.inl rfl)]
    rw [if_pos (by simp : ([cs "pdb"] : List (List Char)).length ≤ 1)]
    simp [uniprotToPdbGo]
  · rw [hrest] at hshape
    rw [show (pdFound search accs (pdSeed st d), pdQueried search accs).1
      = pdFound search accs (pdSeed st d) from rfl, hshape]
    rw [addStructuresCore_store st d (cs "pdb") (x :: xs) (Or.inl rfl) (by simp)]
    rw [if_neg (by simp : ¬ ((cs "pdb" :: x :: xs : List (List Char)).length ≤ 1))]
    simp [uniprotToPdbGo, hacc]

/-- Witness for C3 (amended): the concrete two-accession state with a 204
on the first accession. -/
theorem claim3_amended_witness :
    (uniprotToPdb pdCexSearch pdCexSt).2 = pdQueried pdCexSearch [cs "A1", cs "A2"] ∧
    (uniprotToPdb pdCexSearch pdCexSt).1 =
      (if (pdFound pdCexSearch [cs "A1", cs "A2"] (pdSeed pdCexSt (cs "d"))).length ≤ 1
       then pdCexSt
       else { pdCexSt with
              structures :=
                dictInsert pdCexSt.structures (cs "d")
                  (pdFound pdCexSearch [cs "A1", cs "A2"] (pdSeed pdCexSt (cs "d"))) }) :=
  claim3_amended.2 pdCexSearch pdCexSt (cs "d") [cs "A1", cs "A2"] rfl

end PySeqSt
